import Mathlib

/-!
Verification development for the LinkedIn blog-post generator and email
dispatcher (src/blog_generator.py, src/email_sender.py).

Strings are modelled as `List Char`.  Python's `re` transforms are embedded
as executable char-list functions; where the embedding restricts a Unicode
category used by Python (`\w`, `\s`, `str.lower`) to its ASCII behaviour the
definition notes it.  All definitions are structural recursions, so they
evaluate by `decide` on concrete inputs.
-/

/-- Character list of a string literal. -/
def strL (s : String) : List Char := s.data

/-- `str.lower()` (ASCII case fold; the error texts inspected are ASCII). -/
def lowerL (l : List Char) : List Char := l.map Char.toLower

/-- Python's `pat in s` substring test. -/
def occursIn (pat l : List Char) : Bool :=
  (List.range (l.length + 1)).any (fun i => pat.isPrefixOf (l.drop i))

/-- Python's `\s` class (ASCII part: space, tab, newline, CR, VT, FF). -/
def pySpace (c : Char) : Bool :=
  c = ' ' || c = '\t' || c = '\n' || c = '\r' || c = '\x0b' || c = '\x0c'

/-- `str.lstrip()`. -/
def lstrip (l : List Char) : List Char := l.dropWhile pySpace

/-- `str.rstrip()`. -/
def rstrip (l : List Char) : List Char := (l.reverse.dropWhile pySpace).reverse

/-- Python's `str.strip()`. -/
def pstrip (l : List Char) : List Char := rstrip (lstrip l)

/-- `response_text.split('\n')` (keeps empty pieces, exactly as Python). -/
def splitLines : List Char → List (List Char)
  | [] => [[]]
  | c :: rest =>
    if c = '\n' then [] :: splitLines rest
    else
      match splitLines rest with
      | [] => [[c]]
      | s :: ss => (c :: s) :: ss

/-- `'\n'.join(lines)`: inverse of `splitLines` on newline-free lines. -/
def joinLines : List (List Char) → List Char
  | [] => []
  | [l] => l
  | l :: ls => l ++ '\n' :: joinLines ls

/-- Accumulator for `wsTokens` (current token collected in reverse). -/
def wsTokensAux : List Char → List Char → List (List Char)
  | cur, [] => if cur = [] then [] else [cur.reverse]
  | cur, c :: t =>
    if pySpace c then
      if cur = [] then wsTokensAux [] t else cur.reverse :: wsTokensAux [] t
    else wsTokensAux (c :: cur) t

/-- The whitespace-delimited tokens of a string (`str.split()`). -/
def wsTokens (l : List Char) : List (List Char) := wsTokensAux [] l

/-- The emoji denylist applied to title, hashtags and call-to-action
(`_clean_content`, the character class of lines 224/251/260; `️` is the
variation selector the class holds as part of the two-codepoint star). -/
def emojiBasic : List Char :=
  ['🎯', '📝', '💡', '🚀', '✨', '🔥', '💪', '🌟', '📈', '⭐', '️', '🎪',
   '🎭', '🎨', '🎬', '🎤', '🎼', '🎵', '🎶', '🎸', '🎺', '🎻', '🥳', '🤝',
   '👍', '💯']

/-- The larger emoji denylist applied to content (line 236): `emojiBasic`
plus the extra pictographs (their `️` selectors are already present). -/
def emojiContent : List Char :=
  emojiBasic ++
  ['🌍', '🌎', '🌏', '🔮', '🎊', '🎉', '🎈', '🎀', '🎁', '🏆', '🥇', '🥈',
   '🥉', '🏅', '🎖', '🏵', '🎗']

/-- `re.sub(r'\*+', '', s)` removes every asterisk; on content the two
emphasis-unwrapping passes `\*\*([^*]+)\*\*` → `\1` and `\*([^*]+)\*` → `\1`
before it delete only asterisks and keep the inner text, so the composite of
the three substitutions also removes exactly the asterisk characters. -/
def stripAsterisks (l : List Char) : List Char := l.filter (fun c => c != '*')

/-- Removal of one of the emoji character classes (a `re.sub` of the class
with `''` deletes exactly the characters in the class). -/
def stripEmojis (es : List Char) (l : List Char) : List Char :=
  l.filter (fun c => !es.contains c)

/-- Python `\w` (ASCII part), the continuation class `[A-Za-z0-9_]` of the
hashtag word pattern. -/
def wordChar (c : Char) : Bool := c.isAlphanum || c = '_'

/-- Whether a match of `(?<!\#)\b` holds before an `[A-Za-z]` character whose
original predecessor is `prev` (`none` at the start of the string): the
predecessor must not be a `\w` character (word boundary) and must not be
`#` (the negative lookbehind).  `\w` is modelled by its ASCII part
`[A-Za-z0-9_]`, the only characters the pattern itself can match. -/
def boundaryOk : Option Char → Bool
  | none => true
  | some p => !wordChar p && p != '#'

/-- `re.sub(r'(?<!\#)\b([A-Za-z][A-Za-z0-9_]*)', r'#\1', s)`: scanning left
to right, a `#` is inserted before every `[A-Za-z]` character that sits at a
word boundary not preceded by `#`; the characters inside the matched word
have a word-character predecessor, so walking the word char-by-char inserts
nothing further, exactly as the regex's single match over the word. -/
def hashMark : Option Char → List Char → List Char
  | _, [] => []
  | prev, c :: t =>
    if c.isAlpha && boundaryOk prev then '#' :: c :: hashMark (some c) t
    else c :: hashMark (some c) t

/-- `re.sub(r'\n{3,}', '\n\n', s)`: a run of three or more newlines becomes
exactly two; `k` counts the newlines already emitted for the current run, so
each newline is kept only while fewer than two were kept for its run. -/
def collapseNl : Nat → List Char → List Char
  | _, [] => []
  | k, c :: t =>
    if c = '\n' then
      if k < 2 then '\n' :: collapseNl (k + 1) t else collapseNl (k + 1) t
    else c :: collapseNl 0 t

/-- The bullet class `[•▪▫◦‣⁃]` of line 242. -/
def bulletChar (c : Char) : Bool :=
  c = '•' || c = '▪' || c = '▫' || c = '◦' || c = '‣' || c = '⁃'

/-- `re.sub(r'^[•▪▫◦‣⁃]\s*', '', s, flags=re.MULTILINE)`: at every line
start a bullet character and the greedy whitespace run after it are deleted.
`ls` says whether the current position is a line start in the original
string (position 0, or the original predecessor is a newline), `eating`
whether the scanner is inside the `\s*` of a match. -/
def bulletSub1Go : Bool → Bool → List Char → List Char
  | _, _, [] => []
  | ls, eating, c :: t =>
    if eating && pySpace c then bulletSub1Go (c = '\n') true t
    else if ls && bulletChar c then bulletSub1Go false true t
    else c :: bulletSub1Go (c = '\n') false t

/-- `re.sub(r'^[-*]\s+', '', s, flags=re.MULTILINE)`: at a line start a `-`
or `*` followed by at least one whitespace character is deleted together
with the greedy whitespace run (the one-character lookahead checks the
`\s+`). -/
def bulletSub2Go : Bool → Bool → List Char → List Char
  | _, _, [] => []
  | ls, eating, c :: t =>
    if eating && pySpace c then bulletSub2Go (c = '\n') true t
    else if ls && (c = '-' || c = '*') &&
        (match t with | x :: _ => pySpace x | [] => false) then
      bulletSub2Go false true t
    else c :: bulletSub2Go (c = '\n') false t

/-- Cleaning of `blog_data['title']` (lines 222-225): remove asterisks,
remove the emoji class, strip; an empty field is left alone. -/
def clean_titleF (t : List Char) : List Char :=
  if t = [] then t else pstrip (stripEmojis emojiBasic (stripAsterisks t))

/-- Cleaning of `blog_data['content']` (lines 228-245): unwrap and remove
asterisk emphasis, remove the content emoji class, collapse runs of three or
more newlines, strip leading bullet markers and leading `-`/`*` list
markers, strip; an empty field is left alone. -/
def clean_contentF (c : List Char) : List Char :=
  if c = [] then c
  else
    pstrip (bulletSub2Go true false (bulletSub1Go true false
      (collapseNl 0 (stripEmojis emojiContent (stripAsterisks c)))))

/-- Cleaning of `blog_data['hashtags']` (lines 248-254): remove the emoji
class, prefix bare words with `#`, strip; an empty field is left alone. -/
def clean_hashtagsF (h : List Char) : List Char :=
  if h = [] then h else pstrip (hashMark none (stripEmojis emojiBasic h))

/-- Cleaning of `blog_data['call_to_action']` (lines 257-262): remove the
emoji class, remove asterisks, strip; an empty field is left alone. -/
def clean_ctaF (c : List Char) : List Char :=
  if c = [] then c else pstrip (stripAsterisks (stripEmojis emojiBasic c))

/-- The record `_parse_blog_response` builds (the string-valued fields of
`blog_data`; the timestamp/topic/tone metadata the orchestrator adds later
plays no part in the claims). -/
structure BlogData where
  title : List Char
  content : List Char
  hashtags : List Char
  call_to_action : List Char
  full_post : List Char

/-- `_clean_content` (lines 215-264): field-wise sanitation; `full_post` is
not touched. -/
def clean_content (bd : BlogData) : BlogData :=
  { bd with
    title := clean_titleF bd.title
    content := clean_contentF bd.content
    hashtags := clean_hashtagsF bd.hashtags
    call_to_action := clean_ctaF bd.call_to_action }

/-- Fuel-indexed body of `replaceRemove`; the fuel (the input's length) is
enough for the scan, which consumes at least one character per step. -/
def removeAllAux : Nat → List Char → List Char → List Char
  | 0, _, cs => cs
  | _ + 1, _, [] => []
  | fuel + 1, pat, c :: rest =>
    if pat.isPrefixOf (c :: rest) && !pat.isEmpty then
      removeAllAux fuel pat (List.drop pat.length (c :: rest))
    else c :: removeAllAux fuel pat rest

/-- Python's `line.replace(pat, '')`: every non-overlapping leftmost
occurrence of `pat` is deleted. -/
def replaceRemove (pat l : List Char) : List Char := removeAllAux l.length pat l

/-- The parser's `current_section` cursor values. -/
inductive Sec where
  | title
  | content
  | hashtags
  | callToAction
deriving DecidableEq

/-- The field of `blog_data` a section cursor points at. -/
def getSec : Sec → BlogData → List Char
  | Sec.title, bd => bd.title
  | Sec.content, bd => bd.content
  | Sec.hashtags, bd => bd.hashtags
  | Sec.callToAction, bd => bd.call_to_action

/-- Writing a section's field. -/
def withSec : Sec → List Char → BlogData → BlogData
  | Sec.title, v, bd => { bd with title := v }
  | Sec.content, v, bd => { bd with content := v }
  | Sec.hashtags, v, bd => { bd with hashtags := v }
  | Sec.callToAction, v, bd => { bd with call_to_action := v }

/-- Continuation lines: appended newline-joined to the active section
(lines 203-208). -/
def appendSec (sec : Sec) (line : List Char) (bd : BlogData) : BlogData :=
  if getSec sec bd ≠ [] then withSec sec (getSec sec bd ++ '\n' :: line) bd
  else withSec sec line bd

/-- One iteration of `_parse_blog_response`'s line loop (lines 188-208):
strip the line, switch the cursor on a recognized label prefix (deleting the
label text with `replace` and stripping), otherwise append a non-empty line
to the active section; with no active section the line is dropped. -/
def stepLine (st : Option Sec × BlogData) (rawLine : List Char) :
    Option Sec × BlogData :=
  let line := pstrip rawLine
  let bd := st.2
  if (strL "TITLE:").isPrefixOf line then
    (some Sec.title, { bd with title := pstrip (replaceRemove (strL "TITLE:") line) })
  else if (strL "CONTENT:").isPrefixOf line then
    (some Sec.content, { bd with content := pstrip (replaceRemove (strL "CONTENT:") line) })
  else if (strL "HASHTAGS:").isPrefixOf line then
    (some Sec.hashtags, { bd with hashtags := pstrip (replaceRemove (strL "HASHTAGS:") line) })
  else if (strL "CALL_TO_ACTION:").isPrefixOf line then
    (some Sec.callToAction,
      { bd with call_to_action := pstrip (replaceRemove (strL "CALL_TO_ACTION:") line) })
  else
    match st.1 with
    | some sec => if line ≠ [] then (st.1, appendSec sec line bd) else st
    | none => st

/-- `_parse_blog_response` (lines 173-213): split on newlines, run the line
loop from empty fields with no active section, then `_clean_content`. -/
def parse_blog_response (responseText : List Char) : BlogData :=
  let st := (splitLines responseText).foldl stepLine
    (none, { title := [], content := [], hashtags := [],
             call_to_action := [], full_post := responseText })
  clean_content st.2

/-- The classified generation errors of §7 (quota-exhausted, rate-limited,
generic upstream). -/
inductive ErrKind where
  | quotaExhausted
  | rateLimited
  | generic
deriving DecidableEq

/-- A classified error: its kind and the message text raised with it. -/
structure ClassifiedError where
  kind : ErrKind
  message : List Char

/-- The `except` clause of `generate_blog_post` (lines 90-114): lowercase
the error text; `quota`, `exceeded` or `limit` anywhere in it selects the
quota message, otherwise `rate` selects the rate-limit message, otherwise
the generic wrapper; each message ends with the original error text. -/
def quotaMessagePre : List Char :=
  strL "🚨 API Quota Exceeded!\n\nYour Google AI (Gemini) free tier quota has been reached.\n\nSolutions:\n1. Wait for quota reset (usually 24 hours)\n2. Upgrade to paid Google AI plan\n3. Check your API usage at https://makersuite.google.com\n4. Try again later with shorter content length\n\nOriginal error: "

def rateMessagePre : List Char :=
  strL "🚨 Rate Limit Exceeded!\n\nYou're making requests too quickly.\n\nSolutions:\n1. Wait 60 seconds before trying again\n2. Reduce frequency of blog generation\n\nOriginal error: "

def genericMessagePre : List Char := strL "Google AI API Error: "

def classify_api_error (apiError : List Char) : ClassifiedError :=
  let errorMessage := lowerL apiError
  if occursIn (strL "quota") errorMessage || occursIn (strL "exceeded") errorMessage ||
      occursIn (strL "limit") errorMessage then
    { kind := ErrKind.quotaExhausted, message := quotaMessagePre ++ apiError }
  else if occursIn (strL "rate") errorMessage then
    { kind := ErrKind.rateLimited, message := rateMessagePre ++ apiError }
  else
    { kind := ErrKind.generic, message := genericMessagePre ++ apiError }

/-- `generate_blog_post`'s inner try (lines 65-114), with the external
call's outcome as input: a raised transport error is classified; a response
whose text is empty raises `No content generated from Google AI` inside the
same try, so that message too goes through the classifier; otherwise the
text is parsed (the timestamp/topic metadata added after parsing is not
modelled). -/
def generate_blog_post (apiResult : Except (List Char) (List Char)) :
    Except ClassifiedError BlogData :=
  match apiResult with
  | Except.error msg => Except.error (classify_api_error msg)
  | Except.ok text =>
    if text = [] then
      Except.error (classify_api_error (strL "No content generated from Google AI"))
    else Except.ok (parse_blog_response text)

/-- `length_guidelines.get(length, "400-600 words")` (lines 126-130, 137). -/
def length_guidelines (length : List Char) : List Char :=
  if length = strL "short" then strL "150-300 words"
  else if length = strL "medium" then strL "400-600 words"
  else if length = strL "long" then strL "700-1000 words"
  else strL "400-600 words"

/-- `_create_blog_prompt` (lines 120-171): the f-string template with its
interpolations; the conditional hashtag/call-to-action instructions become
empty pieces when their flag is off. -/
def create_blog_prompt (topic tone length target_audience : List Char)
    (include_hashtags include_call_to_action : Bool) : List Char :=
  strL "\n        Create a professional LinkedIn blog post with the following specifications:\n\n        Topic: " ++
  topic ++
  strL "\n        Tone: " ++
  tone ++
  strL "\n        Length: " ++
  length_guidelines length ++
  strL "\n        Target Audience: " ++
  target_audience ++
  strL "\n\n        IMPORTANT FORMATTING GUIDELINES:\n        - Use clean, professional text WITHOUT asterisks (*) for emphasis\n        - DO NOT use emojis in the main content\n        - Use proper paragraphs with clear line breaks\n        - Write in a conversational yet professional style\n        - Focus on valuable insights and actionable advice\n        - Avoid excessive formatting symbols or decorative elements\n        - Keep the " ++
  tone ++
  strL " tone throughout\n\n        CONTENT REQUIREMENTS:\n        1. Create an engaging, professional title (no emojis)\n        2. Write a compelling opening paragraph\n        3. Include 2-3 main points with practical insights\n        4. Use clear, readable formatting with proper paragraphs\n        5. Make it valuable and shareable for " ++
  target_audience ++
  strL "\n        \n        " ++
  (if include_hashtags then
    strL "6. Include 5-8 relevant hashtags (hashtags only, no decorative elements)"
  else []) ++
  strL "\n        " ++
  (if include_call_to_action then
    strL "7. End with a professional call-to-action that encourages meaningful engagement"
  else []) ++
  strL "\n\n        FORMAT YOUR RESPONSE EXACTLY AS FOLLOWS:\n        TITLE: [Clean professional title here]\n        \n        CONTENT: [Main blog post content in clear paragraphs, no asterisks or emojis]\n        \n        " ++
  (if include_hashtags then strL "HASHTAGS: [Only hashtags, separated by spaces]" else []) ++
  strL "\n        \n        " ++
  (if include_call_to_action then strL "CALL_TO_ACTION: [Professional call to action]" else []) ++
  strL "\n\n        Remember: Focus on professional, clean content that provides real value without unnecessary formatting.\n        "

/-- The local-part class `[a-zA-Z0-9._%+-]` of `validate_email`'s pattern. -/
def localChar (c : Char) : Bool :=
  c.isAlphanum || c = '.' || c = '_' || c = '%' || c = '+' || c = '-'

/-- The domain class `[a-zA-Z0-9.-]`. -/
def domainChar (c : Char) : Bool := c.isAlphanum || c = '.' || c = '-'

/-- The TLD class `[a-zA-Z]`. -/
def tldChar (c : Char) : Bool := c.isAlpha

/-- A full match of `[a-zA-Z0-9._%+-]+@[a-zA-Z0-9.-]+\.[a-zA-Z]{2,}` over
the whole input: the backtracking search over the two `+`-groups is the
search over the split positions. -/
def email_body_match (l : List Char) : Bool :=
  (List.range (l.length + 1)).any (fun i =>
    !(l.take i).isEmpty && (l.take i).all localChar &&
      (match l.drop i with
       | a :: r =>
         a = '@' &&
         (List.range (r.length + 1)).any (fun j =>
           !(r.take j).isEmpty && (r.take j).all domainChar &&
             (match r.drop j with
              | b :: t => b = '.' && decide (2 ≤ t.length) && t.all tldChar
              | [] => false))
       | [] => false))

/-- `validate_email` (lines 370-383): `re.match` of
`^[a-zA-Z0-9._%+-]+@[a-zA-Z0-9.-]+\.[a-zA-Z]{2,}$` is not None.  Python's
`$` matches at the end of the string or just before one final newline, and
no class of the pattern contains a newline, so the string matches exactly
when its body — or the body left after one trailing newline — matches. -/
def validate_email (email : List Char) : Bool :=
  email_body_match email ||
    (match email.getLast? with
     | some c => c = '\n' && email_body_match email.dropLast
     | none => false)

/-- Written from the spec's words (§4.6 / claim C8): a recipient is valid
iff it is local-part (one or more of alphanumeric, `.`, `_`, `%`, `+`, `-`),
then `@`, then domain (one or more of alphanumeric, `.`, `-`), then `.`,
then an alphabetic TLD of length at least 2. -/
def EmailStructure (s : List Char) : Prop :=
  ∃ loc dom tld : List Char,
    s = loc ++ '@' :: (dom ++ '.' :: tld) ∧ loc ≠ [] ∧
      (∀ c ∈ loc, localChar c = true) ∧ dom ≠ [] ∧
      (∀ c ∈ dom, domainChar c = true) ∧ 2 ≤ tld.length ∧
      ∀ c ∈ tld, tldChar c = true

/-- Insertion into a Python dict modelled as an insertion-ordered
association list: an existing key keeps its position and gets the new value,
a new key goes to the end. -/
def dinsert (k : List Char) (v : Bool) :
    List (List Char × Bool) → List (List Char × Bool)
  | [] => [(k, v)]
  | (k', v') :: t => if k' = k then (k, v) :: t else (k', v') :: dinsert k v t

/-- `validate_recipients` (lines 385-398): `results[email] =
validate_email(email)` over the list, into a dict. -/
def validate_recipients (recipients : List (List Char)) :
    List (List Char × Bool) :=
  recipients.foldl (fun acc r => dinsert r (validate_email r) acc) []

/-- `send_to_multiple_recipients` (lines 91-144): each recipient is handled
in its own try/except, so `results[recipient]` records that recipient's own
transport outcome; `sendOk` is the oracle for whether `_send_email` succeeds
for a recipient (the message construction itself is pure and cannot fail). -/
def send_to_multiple_recipients (sendOk : List Char → Bool)
    (recipients : List (List Char)) : List (List Char × Bool) :=
  recipients.foldl (fun acc r => dinsert r (sendOk r) acc) []

/-- The result dict of `send_batch_with_validation`: the validation and
sending sub-dicts, the summary counts, and the `error` entry (modelled as
the reported invalid set, present only on the strict-mode abort). -/
structure BatchResult where
  validation : List (List Char × Bool)
  sending : List (List Char × Bool)
  total_recipients : Nat
  valid_emails : Nat
  invalid_emails : Nat
  emails_sent : Nat
  emails_failed : Nat
  error : Option (List (List Char))

/-- `send_batch_with_validation` (lines 412-471): validate every recipient,
count the valid/invalid keys of the validation dict; with `skip_invalid`
false and a non-empty invalid set, return with the error entry before any
send; otherwise send to the valid keys (when there are any) and fill the
sent/failed counts from the sending dict. -/
def send_batch_with_validation (sendOk : List Char → Bool)
    (recipients : List (List Char)) (skip_invalid : Bool) : BatchResult :=
  let validation := validate_recipients recipients
  let valid := (validation.filter (fun p => p.2)).map (fun p => p.1)
  let invalid := (validation.filter (fun p => !p.2)).map (fun p => p.1)
  if !invalid.isEmpty && !skip_invalid then
    { validation := validation, sending := [],
      total_recipients := recipients.length, valid_emails := valid.length,
      invalid_emails := invalid.length, emails_sent := 0, emails_failed := 0,
      error := some invalid }
  else
    let sending := if !valid.isEmpty then send_to_multiple_recipients sendOk valid else []
    { validation := validation, sending := sending,
      total_recipients := recipients.length, valid_emails := valid.length,
      invalid_emails := invalid.length,
      emails_sent := (sending.filter (fun p => p.2)).length,
      emails_failed := sending.length - (sending.filter (fun p => p.2)).length,
      error := none }

/-- The distinct keys of a list in first-occurrence order: the key set a
Python dict built by iterating the list holds. -/
def dedupKeys (l : List (List Char)) : List (List Char) :=
  l.foldl (fun acc r => if r ∈ acc then acc else acc ++ [r]) []

/-- The keys of an association list, in order. -/
def keysOf (d : List (List Char × Bool)) : List (List Char) :=
  d.map (fun p => p.1)

/-- A synthetic labeled-section response (claim C5): optional unlabeled
preamble lines, a `TITLE:` line, a multi-line `CONTENT:` section, then
optionally `HASHTAGS:` and `CALL_TO_ACTION:` lines. -/
def mkResponse (preamble : List (List Char)) (t c1 : List Char)
    (cRest : List (List Char)) (h cta : List Char) (hasH hasC : Bool) :
    List Char :=
  joinLines (preamble ++ [strL "TITLE: " ++ t] ++ [strL "CONTENT: " ++ c1] ++
    cRest ++ (if hasH then [strL "HASHTAGS: " ++ h] else []) ++
    (if hasC then [strL "CALL_TO_ACTION: " ++ cta] else []))

/-- Invariant of `hashMark`'s output: no `[A-Za-z]` character of the list
sits at a position where the word pattern could match (given the character
before the list is `prev`), i.e. every letter's predecessor is a word
character or `#`. -/
def NoStart : Option Char → List Char → Prop
  | _, [] => True
  | p, c :: t => (c.isAlpha = true → boundaryOk p = false) ∧ NoStart (some c) t

/-- The hashtag-token shapes the spec's normalization statement assumes: a
bare word `[A-Za-z][A-Za-z0-9_]*`, or such a word with exactly one leading
`#`. -/
def shapedTok (tok : List Char) : Bool :=
  match tok with
  | [] => false
  | c :: r =>
    (c.isAlpha && r.all wordChar) ||
    (c = '#' && (match r with | d :: r' => d.isAlpha && r'.all wordChar | [] => false))

/-- The normalization of one whitespace-delimited hashtag token: a `#` is
put in front unless one is already there. -/
def hashTokF (tok : List Char) : List Char :=
  if tok.headD ' ' = '#' then tok else '#' :: tok

/-- A line that starts with none of the four section labels (after
stripping): the parser treats it as a continuation or drops it. -/
def noLabelLine (l : List Char) : Bool :=
  !((strL "TITLE:").isPrefixOf l) && !((strL "CONTENT:").isPrefixOf l) &&
    !((strL "HASHTAGS:").isPrefixOf l) && !((strL "CALL_TO_ACTION:").isPrefixOf l)

theorem isPrefixOf_exists {p l : List Char} :
    p.isPrefixOf l = true ↔ ∃ r, l = p ++ r := by
  rw [List.isPrefixOf_iff_prefix]
  constructor
  · rintro ⟨r, hr⟩; exact ⟨r, hr.symm⟩
  · rintro ⟨r, hr⟩; exact ⟨r, hr.symm⟩

theorem occursIn_exists {pat l : List Char} :
    occursIn pat l = true ↔ ∃ u v, l = u ++ pat ++ v := by
  unfold occursIn
  rw [List.any_eq_true]
  constructor
  · rintro ⟨i, _, hp⟩
    obtain ⟨r, hr⟩ := isPrefixOf_exists.mp hp
    refine ⟨l.take i, r, ?_⟩
    conv_lhs => rw [← List.take_append_drop i l]
    rw [hr, List.append_assoc]
  · rintro ⟨u, v, huv⟩
    refine ⟨u.length, ?_, ?_⟩
    · rw [List.mem_range]
      subst huv
      simp [List.length_append]
      omega
    · subst huv
      rw [List.append_assoc, List.drop_left]
      exact isPrefixOf_exists.mpr ⟨v, rfl⟩

theorem occursIn_trans {a b c : List Char} (h1 : occursIn a b = true)
    (h2 : occursIn b c = true) : occursIn a c = true := by
  obtain ⟨u, v, hb⟩ := occursIn_exists.mp h1
  obtain ⟨x, y, hc⟩ := occursIn_exists.mp h2
  subst hb
  refine occursIn_exists.mpr ⟨x ++ u, v ++ y, ?_⟩
  rw [hc]
  simp [List.append_assoc]

theorem occursIn_append_left {pat u : List Char} (v : List Char)
    (h : occursIn pat u = true) : occursIn pat (u ++ v) = true := by
  obtain ⟨x, y, hx⟩ := occursIn_exists.mp h
  exact occursIn_exists.mpr ⟨x, y ++ v, by rw [hx]; simp [List.append_assoc]⟩

theorem occursIn_append_right (u : List Char) {pat v : List Char}
    (h : occursIn pat v = true) : occursIn pat (u ++ v) = true := by
  obtain ⟨x, y, hx⟩ := occursIn_exists.mp h
  exact occursIn_exists.mpr ⟨u ++ x, y, by rw [hx]; simp [List.append_assoc]⟩

theorem occursIn_self (pat : List Char) : occursIn pat pat = true :=
  occursIn_exists.mpr ⟨[], [], by simp⟩

theorem mem_of_mem_dropWhile {c : Char} {p : Char → Bool} {l : List Char}
    (h : c ∈ l.dropWhile p) : c ∈ l :=
  (List.dropWhile_sublist p).subset h

theorem mem_of_mem_lstrip {c : Char} {l : List Char} (h : c ∈ lstrip l) :
    c ∈ l := mem_of_mem_dropWhile h

theorem mem_of_mem_rstrip {c : Char} {l : List Char} (h : c ∈ rstrip l) :
    c ∈ l := by
  unfold rstrip at h
  have h2 : c ∈ List.dropWhile pySpace l.reverse := List.mem_reverse.mp h
  exact List.mem_reverse.mp (mem_of_mem_dropWhile h2)

theorem mem_of_mem_pstrip {c : Char} {l : List Char} (h : c ∈ pstrip l) :
    c ∈ l := mem_of_mem_lstrip (mem_of_mem_rstrip h)

theorem mem_of_mem_collapseNl {c : Char} :
    ∀ (l : List Char) (k : Nat), c ∈ collapseNl k l → c ∈ l := by
  intro l
  induction l with
  | nil => intro k h; simp [collapseNl] at h
  | cons a t ih =>
    intro k h
    simp only [collapseNl] at h
    by_cases ha : a = '\n'
    · rw [if_pos ha] at h
      by_cases hk : k < 2
      · rw [if_pos hk] at h
        rcases List.mem_cons.mp h with h | h
        · subst ha h; exact List.mem_cons_self _ _
        · exact List.mem_cons_of_mem _ (ih _ h)
      · rw [if_neg hk] at h
        exact List.mem_cons_of_mem _ (ih _ h)
    · rw [if_neg ha] at h
      rcases List.mem_cons.mp h with h | h
      · subst h; exact List.mem_cons_self _ _
      · exact List.mem_cons_of_mem _ (ih _ h)

theorem mem_of_mem_bulletSub1Go {c : Char} :
    ∀ (l : List Char) (ls eating : Bool), c ∈ bulletSub1Go ls eating l → c ∈ l := by
  intro l
  induction l with
  | nil => intro ls e h; simp [bulletSub1Go] at h
  | cons a t ih =>
    intro ls e h
    simp only [bulletSub1Go] at h
    split_ifs at h with h1 h2
    · exact List.mem_cons_of_mem _ (ih _ _ h)
    · exact List.mem_cons_of_mem _ (ih _ _ h)
    · rcases List.mem_cons.mp h with h | h
      · subst h; exact List.mem_cons_self _ _
      · exact List.mem_cons_of_mem _ (ih _ _ h)

theorem mem_of_mem_bulletSub2Go {c : Char} :
    ∀ (l : List Char) (ls eating : Bool), c ∈ bulletSub2Go ls eating l → c ∈ l := by
  intro l
  induction l with
  | nil => intro ls e h; simp [bulletSub2Go] at h
  | cons a t ih =>
    intro ls e h
    simp only [bulletSub2Go] at h
    split_ifs at h with h1 h2
    · exact List.mem_cons_of_mem _ (ih _ _ h)
    · exact List.mem_cons_of_mem _ (ih _ _ h)
    · rcases List.mem_cons.mp h with h | h
      · subst h; exact List.mem_cons_self _ _
      · exact List.mem_cons_of_mem _ (ih _ _ h)

theorem mem_of_mem_hashMark {c : Char} :
    ∀ (l : List Char) (p : Option Char), c ∈ hashMark p l → c = '#' ∨ c ∈ l := by
  intro l
  induction l with
  | nil => intro p h; simp [hashMark] at h
  | cons a t ih =>
    intro p h
    simp only [hashMark] at h
    split_ifs at h with h1
    · rcases List.mem_cons.mp h with h | h
      · exact Or.inl h
      · rcases List.mem_cons.mp h with h | h
        · exact Or.inr (h ▸ List.mem_cons_self _ _)
        · rcases ih _ h with h | h
          · exact Or.inl h
          · exact Or.inr (List.mem_cons_of_mem _ h)
    · rcases List.mem_cons.mp h with h | h
      · exact Or.inr (h ▸ List.mem_cons_self _ _)
      · rcases ih _ h with h | h
        · exact Or.inl h
        · exact Or.inr (List.mem_cons_of_mem _ h)

theorem dropWhile_head_false {p : Char → Bool} {l : List Char} {c : Char}
    {t : List Char} (h : List.dropWhile p l = c :: t) : p c = false := by
  induction l with
  | nil => simp [List.dropWhile] at h
  | cons a l' ih =>
    rw [List.dropWhile_cons] at h
    split_ifs at h with ha
    · exact ih h
    · cases h; simpa using ha

theorem dropWhile_idem (p : Char → Bool) (l : List Char) :
    List.dropWhile p (List.dropWhile p l) = List.dropWhile p l := by
  cases h : List.dropWhile p l with
  | nil => simp
  | cons c t => rw [List.dropWhile_cons, if_neg (by simp [dropWhile_head_false h])]

theorem lstrip_idem (l : List Char) : lstrip (lstrip l) = lstrip l :=
  dropWhile_idem pySpace l

theorem rstrip_idem (l : List Char) : rstrip (rstrip l) = rstrip l := by
  unfold rstrip
  rw [List.reverse_reverse, dropWhile_idem]

theorem rstrip_prefix (l : List Char) :
    ∃ u, l = rstrip l ++ u ∧ ∀ c ∈ u, pySpace c = true := by
  refine ⟨(l.reverse.takeWhile pySpace).reverse, ?_, ?_⟩
  · conv_lhs => rw [← List.reverse_reverse l,
      ← List.takeWhile_append_dropWhile pySpace l.reverse]
    rw [List.reverse_append]
    rfl
  · intro c hc
    exact List.mem_takeWhile_imp (List.mem_reverse.mp hc)

theorem head_not_space_of_lstrip_fix {l : List Char} (h : lstrip l = l)
    {c : Char} {t : List Char} (hl : l = c :: t) : pySpace c = false := by
  subst hl
  by_contra hc
  rw [Bool.not_eq_false] at hc
  unfold lstrip at h
  rw [List.dropWhile_cons, if_pos hc] at h
  have := congrArg List.length h
  have hle := (List.dropWhile_sublist (l := t) pySpace).length_le
  simp at this
  omega

theorem lstrip_of_rstrip_of_lstrip_fix {l : List Char} (h : lstrip l = l) :
    lstrip (rstrip l) = rstrip l := by
  cases hr : rstrip l with
  | nil => simp [lstrip]
  | cons c t =>
    obtain ⟨u, hu, _⟩ := rstrip_prefix l
    rw [hr] at hu
    have hc : pySpace c = false := by
      apply head_not_space_of_lstrip_fix h (t := t ++ u)
      rw [hu]; simp
    unfold lstrip
    rw [List.dropWhile_cons, if_neg (by simp [hc])]

theorem pstrip_idem (l : List Char) : pstrip (pstrip l) = pstrip l := by
  show rstrip (lstrip (rstrip (lstrip l))) = rstrip (lstrip l)
  rw [lstrip_of_rstrip_of_lstrip_fix (lstrip_idem l), rstrip_idem]

theorem headD_reverse_eq_getLastD (l : List Char) (d : Char) :
    l.reverse.headD d = l.getLastD d := by
  rw [List.headD_eq_head?, List.head?_reverse, List.getLastD_eq_getLast?]

theorem lstrip_fix_rstrip_fix_of_pstrip_fix {l : List Char}
    (h : pstrip l = l) : lstrip l = l ∧ rstrip l = l := by
  have hsuf : ∃ w, w ++ lstrip l = l := List.dropWhile_suffix pySpace
  obtain ⟨w, hw⟩ := hsuf
  obtain ⟨u, hu, _⟩ := rstrip_prefix (lstrip l)
  have hlen1 : (lstrip l).length = l.length + u.length := by
    conv_lhs => rw [hu]
    rw [show rstrip (lstrip l) = l from h]
    simp
  have hlen2 : l.length = w.length + (lstrip l).length := by
    conv_lhs => rw [← hw]; simp
  have hw0 : w.length = 0 := by omega
  have hlf : lstrip l = l := by
    rw [List.length_eq_zero] at hw0
    rw [hw0] at hw
    simpa using hw
  refine ⟨hlf, ?_⟩
  have hps : pstrip l = rstrip (lstrip l) := rfl
  rw [hps, hlf] at h
  exact h

theorem head_last_not_space_of_pstrip_fix {l : List Char} (h : pstrip l = l)
    (hne : l ≠ []) :
    pySpace (l.headD ' ') = false ∧ pySpace (l.getLastD ' ') = false := by
  obtain ⟨hlf, hrf⟩ := lstrip_fix_rstrip_fix_of_pstrip_fix h
  cases hl : l with
  | nil => exact absurd hl hne
  | cons c t =>
    subst hl
    constructor
    · simpa using head_not_space_of_lstrip_fix hlf rfl
    · have hrev : lstrip (c :: t).reverse = (c :: t).reverse := by
        unfold rstrip at hrf
        have h2 := congrArg List.reverse hrf
        rw [List.reverse_reverse] at h2
        exact h2
      cases hrev2 : (c :: t).reverse with
      | nil => simp at hrev2
      | cons d s =>
        have hd : pySpace d = false := head_not_space_of_lstrip_fix hrev hrev2
        have h4 : (c :: t).getLastD ' ' = d := by
          rw [← headD_reverse_eq_getLastD, hrev2]
          rfl
        rw [h4]
        exact hd

theorem lstrip_eq_self_of_head {l : List Char} {c : Char} {t : List Char}
    (hl : l = c :: t) (hc : pySpace c = false) : lstrip l = l := by
  subst hl
  unfold lstrip
  rw [List.dropWhile_cons, if_neg (by simp [hc])]

theorem rstrip_eq_self_of_last {l : List Char}
    (hc : pySpace (l.getLastD ' ') = false) : rstrip l = l := by
  unfold rstrip
  cases hrev : l.reverse with
  | nil => simp [List.reverse_eq_nil_iff.mp hrev]
  | cons d s =>
    have hd : l.getLastD ' ' = d := by
      rw [← headD_reverse_eq_getLastD, hrev]
      rfl
    rw [hd] at hc
    rw [List.dropWhile_cons, if_neg (by simp [hc]), ← hrev, List.reverse_reverse]

theorem pstrip_eq_self_of {l : List Char} (hne : l ≠ [])
    (hh : pySpace (l.headD ' ') = false)
    (hl : pySpace (l.getLastD ' ') = false) : pstrip l = l := by
  cases hcase : l with
  | nil => exact absurd hcase hne
  | cons c t =>
    subst hcase
    unfold pstrip
    rw [lstrip_eq_self_of_head rfl (by simpa using hh)]
    exact rstrip_eq_self_of_last hl

/-- C1 (amended): classification inspects the lowercased error text; a text
containing `quota`, `exceeded` or `limit` classifies as quota-exhausted
(so a message containing `quota exceeded` does, but so does one containing
`rate limit`); a text free of those three but containing `rate` classifies
as rate-limited; any other text classifies as generic; every classified
error's message carries the original error text. -/
theorem claim_C1_error_classification (apiError : List Char) :
    ((occursIn (strL "quota") (lowerL apiError) ||
        occursIn (strL "exceeded") (lowerL apiError) ||
        occursIn (strL "limit") (lowerL apiError)) = true →
      (classify_api_error apiError).kind = ErrKind.quotaExhausted) ∧
    ((occursIn (strL "quota") (lowerL apiError) ||
        occursIn (strL "exceeded") (lowerL apiError) ||
        occursIn (strL "limit") (lowerL apiError)) = false →
      occursIn (strL "rate") (lowerL apiError) = true →
      (classify_api_error apiError).kind = ErrKind.rateLimited) ∧
    ((occursIn (strL "quota") (lowerL apiError) ||
        occursIn (strL "exceeded") (lowerL apiError) ||
        occursIn (strL "limit") (lowerL apiError)) = false →
      occursIn (strL "rate") (lowerL apiError) = false →
      (classify_api_error apiError).kind = ErrKind.generic) ∧
    (occursIn (strL "quota exceeded") (lowerL apiError) = true →
      (classify_api_error apiError).kind = ErrKind.quotaExhausted) ∧
    (∃ pre, (classify_api_error apiError).message = pre ++ apiError) := by
  refine ⟨?_, ?_, ?_, ?_, ?_⟩
  · intro h
    simp [classify_api_error, h]
  · intro h1 h2
    simp [classify_api_error, h1, h2]
  · intro h1 h2
    simp [classify_api_error, h1, h2]
  · intro h
    have hq : occursIn (strL "quota") (lowerL apiError) = true :=
      occursIn_trans (by decide) h
    simp [classify_api_error, hq]
  · by_cases h1 : (occursIn (strL "quota") (lowerL apiError) ||
        occursIn (strL "exceeded") (lowerL apiError) ||
        occursIn (strL "limit") (lowerL apiError)) = true
    · exact ⟨quotaMessagePre, by simp [classify_api_error, h1]⟩
    · rw [Bool.not_eq_true] at h1
      by_cases h2 : occursIn (strL "rate") (lowerL apiError) = true
      · exact ⟨rateMessagePre, by simp [classify_api_error, h1, h2]⟩
      · rw [Bool.not_eq_true] at h2
        exact ⟨genericMessagePre, by simp [classify_api_error, h1, h2]⟩

/-- C1 (counterexample): an error text containing `rate limit` does not
classify as rate-limited — the substring `limit` sends it to the
quota-exhausted branch first. -/
theorem claim_C1_counterexample :
    (classify_api_error (strL "rate limit")).kind = ErrKind.quotaExhausted ∧
      ErrKind.quotaExhausted ≠ ErrKind.rateLimited := by
  decide

/-- C2 (code bug): an external response with empty text raises
`No content generated from Google AI` inside the same try whose handler
re-classifies error messages, and `generated` contains the substring
`rate`, so the empty-response failure surfaces as the rate-limit error, not
as the generic upstream error the spec states. -/
theorem claim_C2_empty_response :
    generate_blog_post (Except.ok []) =
      Except.error (classify_api_error (strL "No content generated from Google AI")) ∧
    (classify_api_error (strL "No content generated from Google AI")).kind =
      ErrKind.rateLimited := by
  constructor
  · rfl
  · decide

theorem prompt_contains_guideline (topic tone length target_audience : List Char)
    (ih ic : Bool) :
    occursIn (length_guidelines length)
      (create_blog_prompt topic tone length target_audience ih ic) = true := by
  unfold create_blog_prompt
  apply occursIn_append_left
  apply occursIn_append_left
  apply occursIn_append_left
  apply occursIn_append_left
  apply occursIn_append_left
  apply occursIn_append_left
  apply occursIn_append_left
  apply occursIn_append_left
  apply occursIn_append_left
  apply occursIn_append_left
  apply occursIn_append_left
  apply occursIn_append_left
  apply occursIn_append_left
  apply occursIn_append_left
  apply occursIn_append_left
  exact occursIn_append_right _ (occursIn_self _)

/-- C9: for each recognized length the prompt contains the exact word-count
range (`short` → `150-300 words`, `medium` → `400-600 words`, `long` →
`700-1000 words`), and for every unrecognized length value it contains the
medium range `400-600 words`; the builder is a total function of its
arguments. -/
theorem claim_C9_prompt_lengths :
    (∀ topic tone target_audience : List Char, ∀ ih ic : Bool,
      occursIn (strL "150-300 words")
        (create_blog_prompt topic tone (strL "short") target_audience ih ic) = true) ∧
    (∀ topic tone target_audience : List Char, ∀ ih ic : Bool,
      occursIn (strL "400-600 words")
        (create_blog_prompt topic tone (strL "medium") target_audience ih ic) = true) ∧
    (∀ topic tone target_audience : List Char, ∀ ih ic : Bool,
      occursIn (strL "700-1000 words")
        (create_blog_prompt topic tone (strL "long") target_audience ih ic) = true) ∧
    (∀ topic tone length target_audience : List Char, ∀ ih ic : Bool,
      length ≠ strL "short" → length ≠ strL "medium" → length ≠ strL "long" →
      occursIn (strL "400-600 words")
        (create_blog_prompt topic tone length target_audience ih ic) = true) := by
  refine ⟨?_, ?_, ?_, ?_⟩
  · intro topic tone target_audience ih ic
    have h := prompt_contains_guideline topic tone (strL "short") target_audience ih ic
    rwa [show length_guidelines (strL "short") = strL "150-300 words" from rfl] at h
  · intro topic tone target_audience ih ic
    have h := prompt_contains_guideline topic tone (strL "medium") target_audience ih ic
    rwa [show length_guidelines (strL "medium") = strL "400-600 words" from rfl] at h
  · intro topic tone target_audience ih ic
    have h := prompt_contains_guideline topic tone (strL "long") target_audience ih ic
    rwa [show length_guidelines (strL "long") = strL "700-1000 words" from rfl] at h
  · intro topic tone length target_audience ih ic h1 h2 h3
    have h := prompt_contains_guideline topic tone length target_audience ih ic
    have hg : length_guidelines length = strL "400-600 words" := by
      unfold length_guidelines
      rw [if_neg h1, if_neg h2, if_neg h3]
    rw [hg] at h
    exact h

theorem clean_titleF_chars (t : List Char) :
    ∀ c ∈ clean_titleF t, c ≠ '*' ∧ c ∉ emojiBasic := by
  intro c hc
  unfold clean_titleF at hc
  split_ifs at hc with h
  · rw [h] at hc; simp at hc
  · have h1 := mem_of_mem_pstrip hc
    unfold stripEmojis at h1
    obtain ⟨h3, h4⟩ := List.mem_filter.mp h1
    unfold stripAsterisks at h3
    have h5 := (List.mem_filter.mp h3).2
    constructor
    · simpa using h5
    · simpa using h4

theorem clean_ctaF_chars (t : List Char) :
    ∀ c ∈ clean_ctaF t, c ≠ '*' ∧ c ∉ emojiBasic := by
  intro c hc
  unfold clean_ctaF at hc
  split_ifs at hc with h
  · rw [h] at hc; simp at hc
  · have h1 := mem_of_mem_pstrip hc
    unfold stripAsterisks at h1
    obtain ⟨h3, h4⟩ := List.mem_filter.mp h1
    unfold stripEmojis at h3
    have h5 := (List.mem_filter.mp h3).2
    constructor
    · simpa using h4
    · simpa using h5

theorem clean_contentF_chars (t : List Char) :
    ∀ c ∈ clean_contentF t, c ≠ '*' ∧ c ∉ emojiContent := by
  intro c hc
  unfold clean_contentF at hc
  split_ifs at hc with h
  · rw [h] at hc; simp at hc
  · have h1 := mem_of_mem_pstrip hc
    have h2 := mem_of_mem_bulletSub2Go _ _ _ h1
    have h3 := mem_of_mem_bulletSub1Go _ _ _ h2
    have h4 := mem_of_mem_collapseNl _ _ h3
    unfold stripEmojis at h4
    obtain ⟨h5, h6⟩ := List.mem_filter.mp h4
    unfold stripAsterisks at h5
    have h7 := (List.mem_filter.mp h5).2
    constructor
    · simpa using h7
    · simpa using h6

theorem emojiBasic_subset_content {c : Char} (h : c ∈ emojiBasic) :
    c ∈ emojiContent := by
  unfold emojiContent
  exact List.mem_append_left _ h

/-- C7: after sanitation the title, content and call-to-action fields hold
no character of the fixed emoji denylist and no emphasis-marker asterisk. -/
theorem claim_C7_sanitizer_removal (bd : BlogData) :
    (∀ c ∈ (clean_content bd).title, c ≠ '*' ∧ c ∉ emojiBasic) ∧
    (∀ c ∈ (clean_content bd).content, c ≠ '*' ∧ c ∉ emojiBasic) ∧
    (∀ c ∈ (clean_content bd).call_to_action, c ≠ '*' ∧ c ∉ emojiBasic) := by
  refine ⟨?_, ?_, ?_⟩
  · intro c hc
    exact clean_titleF_chars bd.title c hc
  · intro c hc
    obtain ⟨h1, h2⟩ := clean_contentF_chars bd.content c hc
    exact ⟨h1, fun hm => h2 (emojiBasic_subset_content hm)⟩
  · intro c hc
    exact clean_ctaF_chars bd.call_to_action c hc

theorem clean_titleF_idem (t : List Char) :
    clean_titleF (clean_titleF t) = clean_titleF t := by
  by_cases h : t = []
  · rw [h]; rfl
  · have hwexp : clean_titleF t = pstrip (stripEmojis emojiBasic (stripAsterisks t)) := by
      unfold clean_titleF; rw [if_neg h]
    by_cases hw0 : clean_titleF t = []
    · rw [hw0]; rfl
    · have hchars := clean_titleF_chars t
      conv_lhs => rw [clean_titleF, if_neg hw0]
      have hsa : stripAsterisks (clean_titleF t) = clean_titleF t :=
        List.filter_eq_self.mpr (fun a ha => by simpa using (hchars a ha).1)
      have hse : stripEmojis emojiBasic (clean_titleF t) = clean_titleF t :=
        List.filter_eq_self.mpr (fun a ha => by simpa using (hchars a ha).2)
      rw [hsa, hse, hwexp, pstrip_idem]

theorem clean_ctaF_idem (t : List Char) :
    clean_ctaF (clean_ctaF t) = clean_ctaF t := by
  by_cases h : t = []
  · rw [h]; rfl
  · have hwexp : clean_ctaF t = pstrip (stripAsterisks (stripEmojis emojiBasic t)) := by
      unfold clean_ctaF; rw [if_neg h]
    by_cases hw0 : clean_ctaF t = []
    · rw [hw0]; rfl
    · have hchars := clean_ctaF_chars t
      conv_lhs => rw [clean_ctaF, if_neg hw0]
      have hse : stripEmojis emojiBasic (clean_ctaF t) = clean_ctaF t :=
        List.filter_eq_self.mpr (fun a ha => by simpa using (hchars a ha).2)
      have hsa : stripAsterisks (clean_ctaF t) = clean_ctaF t :=
        List.filter_eq_self.mpr (fun a ha => by simpa using (hchars a ha).1)
      rw [hse, hsa, hwexp, pstrip_idem]

theorem space_not_word {c : Char} (h : pySpace c = true) :
    wordChar c = false ∧ c ≠ '#' ∧ c.isAlpha = false := by
  simp [pySpace] at h
  rcases h with ((((h | h) | h) | h) | h) | h <;> subst h <;>
    exact ⟨by decide, by decide, by decide⟩

theorem boundaryOk_space {c : Char} (h : pySpace c = true) :
    boundaryOk (some c) = true := by
  obtain ⟨h1, h2, _⟩ := space_not_word h
  simp [boundaryOk, h1, h2]

theorem noStart_congr {p q : Option Char} {l : List Char}
    (h : boundaryOk p = boundaryOk q) (hn : NoStart p l) : NoStart q l := by
  cases l with
  | nil => trivial
  | cons c t => exact ⟨fun hl => h ▸ hn.1 hl, hn.2⟩

theorem noStart_hashMark : ∀ (l : List Char) (p : Option Char),
    NoStart p (hashMark p l) := by
  intro l
  induction l with
  | nil => intro p; trivial
  | cons c t ih =>
    intro p
    simp only [hashMark]
    split_ifs with h
    · refine ⟨fun hh => absurd hh (by decide), fun hc => by decide, ?_⟩
      exact ih (some c)
    · refine ⟨fun hc => ?_, ih (some c)⟩
      simp [hc] at h
      exact h

theorem hashMark_of_noStart : ∀ (l : List Char) (p : Option Char),
    NoStart p l → hashMark p l = l := by
  intro l
  induction l with
  | nil => intro p _; rfl
  | cons c t ih =>
    intro p hn
    simp only [hashMark]
    have h1 : ¬(c.isAlpha && boundaryOk p) = true := by
      intro hcb
      rw [Bool.and_eq_true] at hcb
      have h2 := hn.1 hcb.1
      rw [h2] at hcb
      exact Bool.false_ne_true hcb.2
    rw [if_neg h1, ih (some c) hn.2]

theorem noStart_append_left : ∀ (l : List Char) (p : Option Char) (u : List Char),
    NoStart p (l ++ u) → NoStart p l := by
  intro l
  induction l with
  | nil => intro p u _; trivial
  | cons c t ih => exact fun p u h => ⟨h.1, ih (some c) u h.2⟩

theorem noStart_lstrip : ∀ l : List Char, NoStart none l → NoStart none (lstrip l) := by
  intro l
  induction l with
  | nil => intro _; trivial
  | cons c t ih =>
    intro h
    unfold lstrip
    rw [List.dropWhile_cons]
    split_ifs with hc
    · exact ih (noStart_congr (by rw [boundaryOk_space hc]; rfl) h.2)
    · exact h

theorem noStart_rstrip (l : List Char) (h : NoStart none l) :
    NoStart none (rstrip l) := by
  obtain ⟨u, hu, _⟩ := rstrip_prefix l
  exact noStart_append_left _ none u (by rw [← hu]; exact h)

theorem clean_hashtagsF_idem (h : List Char) :
    clean_hashtagsF (clean_hashtagsF h) = clean_hashtagsF h := by
  by_cases h0 : h = []
  · rw [h0]; rfl
  · have hwexp : clean_hashtagsF h = pstrip (hashMark none (stripEmojis emojiBasic h)) := by
      unfold clean_hashtagsF; rw [if_neg h0]
    by_cases hw0 : clean_hashtagsF h = []
    · rw [hw0]; rfl
    · conv_lhs => rw [clean_hashtagsF, if_neg hw0]
      have hmemw : ∀ c ∈ clean_hashtagsF h, (!emojiBasic.contains c) = true := by
        intro c hc
        rw [hwexp] at hc
        have h1 := mem_of_mem_pstrip hc
        rcases mem_of_mem_hashMark _ _ h1 with h2 | h2
        · subst h2; decide
        · exact (List.mem_filter.mp h2).2
      have hse : stripEmojis emojiBasic (clean_hashtagsF h) = clean_hashtagsF h :=
        List.filter_eq_self.mpr hmemw
      rw [hse]
      have hns : NoStart none (clean_hashtagsF h) := by
        rw [hwexp]
        exact noStart_rstrip _ (noStart_lstrip _ (noStart_hashMark _ none))
      rw [hashMark_of_noStart _ none hns, hwexp, pstrip_idem]

/-- C3 (amended): the sanitizer is a total function; applying it twice
equals applying it once on the title, hashtags and call-to-action fields
(and it never touches `full_post`) — full idempotence fails only on the
content field, where the leading list-marker stripping can expose a second
marker that the next run strips again. -/
theorem claim_C3_sanitizer_partial_idem (bd : BlogData) :
    (clean_content (clean_content bd)).title = (clean_content bd).title ∧
    (clean_content (clean_content bd)).hashtags = (clean_content bd).hashtags ∧
    (clean_content (clean_content bd)).call_to_action =
      (clean_content bd).call_to_action ∧
    (clean_content (clean_content bd)).full_post = (clean_content bd).full_post :=
  ⟨clean_titleF_idem _, clean_hashtagsF_idem _, clean_ctaF_idem _, rfl⟩

/-- C3 (counterexample): the sanitizer is not idempotent — on a record
whose content is `- - x` one application yields `- x` and a second yields
`x`, because stripping the leading `- ` list marker exposes another. -/
theorem claim_C3_counterexample :
    (clean_content (clean_content
      { title := [], content := strL "- - x", hashtags := [],
        call_to_action := [], full_post := strL "- - x" })).content ≠
    (clean_content
      { title := [], content := strL "- - x", hashtags := [],
        call_to_action := [], full_post := strL "- - x" }).content := by
  decide

theorem email_body_match_iff {l : List Char} :
    email_body_match l = true ↔ EmailStructure l := by
  unfold email_body_match
  rw [List.any_eq_true]
  constructor
  · rintro ⟨i, _, hp⟩
    rw [Bool.and_eq_true, Bool.and_eq_true] at hp
    obtain ⟨⟨hne, hall⟩, hmatch⟩ := hp
    cases hd : l.drop i with
    | nil => rw [hd] at hmatch; simp at hmatch
    | cons a r =>
      rw [hd] at hmatch
      rw [show (match a :: r with
          | a :: r =>
            a = '@' &&
            (List.range (r.length + 1)).any (fun j =>
              !(r.take j).isEmpty && (r.take j).all domainChar &&
                (match r.drop j with
                 | b :: t => b = '.' && decide (2 ≤ t.length) && t.all tldChar
                 | [] => false))
          | [] => false) =
          (a = '@' &&
            (List.range (r.length + 1)).any (fun j =>
              !(r.take j).isEmpty && (r.take j).all domainChar &&
                (match r.drop j with
                 | b :: t => b = '.' && decide (2 ≤ t.length) && t.all tldChar
                 | [] => false))) from rfl] at hmatch
      rw [Bool.and_eq_true] at hmatch
      obtain ⟨ha, hany⟩ := hmatch
      have ha' : a = '@' := by simpa using ha
      rw [List.any_eq_true] at hany
      obtain ⟨j, _, hq⟩ := hany
      rw [Bool.and_eq_true, Bool.and_eq_true] at hq
      obtain ⟨⟨hdne, hdall⟩, hmatch2⟩ := hq
      cases he : r.drop j with
      | nil => rw [he] at hmatch2; simp at hmatch2
      | cons b t =>
        rw [he] at hmatch2
        rw [show (match b :: t with
            | b :: t => b = '.' && decide (2 ≤ t.length) && t.all tldChar
            | [] => false) =
            (b = '.' && decide (2 ≤ t.length) && t.all tldChar) from rfl] at hmatch2
        rw [Bool.and_eq_true, Bool.and_eq_true] at hmatch2
        obtain ⟨⟨hb, hlen⟩, htall⟩ := hmatch2
        have hb' : b = '.' := by simpa using hb
        refine ⟨l.take i, r.take j, t, ?_, ?_, ?_, ?_, ?_, ?_, ?_⟩
        · have hr : r = r.take j ++ '.' :: t := by
            conv_lhs => rw [← List.take_append_drop j r]
            rw [he, hb']
          conv_lhs => rw [← List.take_append_drop i l]
          rw [hd, ha']
          conv_rhs => rw [← hr]
        · intro h0; rw [h0] at hne; simp at hne
        · exact List.all_eq_true.mp hall
        · intro h0; rw [h0] at hdne; simp at hdne
        · exact List.all_eq_true.mp hdall
        · simpa using hlen
        · exact List.all_eq_true.mp htall
  · rintro ⟨loc, dom, tld, heq, hlne, hlall, hdne, hdall, hlen, htall⟩
    subst heq
    refine ⟨loc.length, ?_, ?_⟩
    · rw [List.mem_range]
      simp [List.length_append]
      omega
    · rw [List.take_left, List.drop_left]
      rw [Bool.and_eq_true, Bool.and_eq_true]
      refine ⟨⟨?_, List.all_eq_true.mpr hlall⟩, ?_⟩
      · simpa using hlne
      · show ((('@' : Char) = '@') &&
          (List.range ((dom ++ '.' :: tld).length + 1)).any (fun j =>
            !((dom ++ '.' :: tld).take j).isEmpty &&
              ((dom ++ '.' :: tld).take j).all domainChar &&
                (match (dom ++ '.' :: tld).drop j with
                 | b :: t => b = '.' && decide (2 ≤ t.length) && t.all tldChar
                 | [] => false))) = true
        rw [Bool.and_eq_true]
        refine ⟨by simp, ?_⟩
        rw [List.any_eq_true]
        refine ⟨dom.length, ?_, ?_⟩
        · rw [List.mem_range]
          simp [List.length_append]
          omega
        · rw [List.take_left, List.drop_left]
          rw [Bool.and_eq_true, Bool.and_eq_true]
          refine ⟨⟨?_, List.all_eq_true.mpr hdall⟩, ?_⟩
          · simpa using hdne
          · show ((('.' : Char) = '.') && decide (2 ≤ tld.length) && tld.all tldChar) = true
            rw [Bool.and_eq_true, Bool.and_eq_true]
            exact ⟨⟨by simp, by simpa using hlen⟩, List.all_eq_true.mpr htall⟩

theorem validate_email_iff {l : List Char} :
    validate_email l = true ↔
      (EmailStructure l ∨ ∃ s, l = s ++ ['\n'] ∧ EmailStructure s) := by
  unfold validate_email
  rw [Bool.or_eq_true]
  constructor
  · rintro (h | h)
    · exact Or.inl (email_body_match_iff.mp h)
    · cases hg : l.getLast? with
      | none => rw [hg] at h; simp at h
      | some c =>
        rw [hg] at h
        rw [show (match some c with
            | some c => c = '\n' && email_body_match l.dropLast
            | none => false) =
            (c = '\n' && email_body_match l.dropLast) from rfl] at h
        rw [Bool.and_eq_true] at h
        obtain ⟨hc, hbody⟩ := h
        have hc' : c = '\n' := by simpa using hc
        have hne : l ≠ [] := by
          intro h0
          rw [h0] at hg
          simp at hg
        refine Or.inr ⟨l.dropLast, ?_, email_body_match_iff.mp hbody⟩
        have h1 := List.dropLast_append_getLast hne
        have h2 : l.getLast hne = c := by
          have := List.getLast?_eq_getLast l hne
          rw [hg] at this
          exact (Option.some_injective _ this).symm
        rw [h2, hc'] at h1
        exact h1.symm
  · rintro (h | ⟨s, heq, hs⟩)
    · exact Or.inl (email_body_match_iff.mpr h)
    · subst heq
      refine Or.inr ?_
      rw [List.getLast?_concat]
      rw [show (match some '\n' with
          | some c => c = '\n' && email_body_match (s ++ ['\n']).dropLast
          | none => false) =
          (('\n' : Char) = '\n' && email_body_match (s ++ ['\n']).dropLast) from rfl]
      rw [List.dropLast_concat, Bool.and_eq_true]
      exact ⟨by simp, email_body_match_iff.mpr hs⟩

theorem emailStructure_last {s : List Char} (h : EmailStructure s) :
    tldChar (s.getLastD ' ') = true := by
  obtain ⟨loc, dom, tld, heq, _, _, _, _, hlen, htall⟩ := h
  have htne : tld ≠ [] := by
    intro h0
    rw [h0] at hlen
    simp at hlen
  subst heq
  rw [List.getLastD_eq_getLast?]
  rw [show (loc ++ '@' :: (dom ++ '.' :: tld)).getLast? = tld.getLast? by
    rw [List.getLast?_append_of_ne_nil _ (by simp),
      show ('@' :: (dom ++ '.' :: tld)).getLast? = (dom ++ '.' :: tld).getLast? by
        cases hdd : dom ++ '.' :: tld with
        | nil => simp at hdd
        | cons x xs => exact List.getLast?_cons_cons,
      List.getLast?_append_of_ne_nil _ (by simp),
      show ('.' :: tld).getLast? = tld.getLast? by
        cases ht : tld with
        | nil => exact absurd ht htne
        | cons x xs => exact List.getLast?_cons_cons]]
  rw [List.getLast?_eq_getLast tld htne]
  exact htall _ (List.getLast_mem htne)

/-- C8 (amended): a recipient string validates iff it matches the spec's
local-part `@` domain `.` alphabetic-TLD pattern, or is such a match
followed by one trailing newline (Python's `$` also matches there); the
four example strings behave as the spec says. -/
theorem claim_C8_email_validation :
    (∀ l : List Char, validate_email l = true ↔
      (EmailStructure l ∨ ∃ s, l = s ++ ['\n'] ∧ EmailStructure s)) ∧
    validate_email (strL "valid@example.com") = true ∧
    validate_email (strL "a.b+c@sub.domain.co") = true ∧
    validate_email (strL "not-an-email") = false ∧
    validate_email (strL "a@b") = false := by
  refine ⟨fun l => validate_email_iff, by decide, by decide, by decide, by decide⟩

/-- C8 (counterexample): the string `valid@example.com` with one trailing
newline validates (Python's `$` matches before a final newline) although it
does not match the claimed pattern, whose TLD is alphabetic. -/
theorem claim_C8_counterexample :
    validate_email (strL "valid@example.com\n") = true ∧
      ¬ EmailStructure (strL "valid@example.com\n") := by
  constructor
  · decide
  · intro h
    have h2 := emailStructure_last h
    revert h2
    decide

theorem keysOf_map (dl : List (List Char)) (f : List Char → Bool) :
    keysOf (dl.map (fun k => (k, f k))) = dl := by
  induction dl with
  | nil => rfl
  | cons a t ih => simpa [keysOf] using ih

theorem dinsert_mem_same (f : List Char → Bool) :
    ∀ (dl : List (List Char)) (k), k ∈ dl →
      dinsert k (f k) (dl.map (fun x => (x, f x))) =
        dl.map (fun x => (x, f x)) := by
  intro dl
  induction dl with
  | nil => intro k h; simp at h
  | cons a t ih =>
    intro k hk
    simp only [List.map_cons, dinsert]
    by_cases hak : a = k
    · rw [if_pos hak, hak]
    · rw [if_neg hak]
      rcases List.mem_cons.mp hk with h | h
      · exact absurd h.symm hak
      · rw [ih k h]

theorem dinsert_append : ∀ (d : List (List Char × Bool)) (k : List Char)
    (v : Bool), k ∉ keysOf d → dinsert k v d = d ++ [(k, v)] := by
  intro d
  induction d with
  | nil => intros; rfl
  | cons p t ih =>
    intro k v hk
    obtain ⟨k', v'⟩ := p
    simp only [keysOf, List.map_cons, List.mem_cons] at hk
    push_neg at hk
    simp only [dinsert]
    rw [if_neg (fun h => hk.1 h.symm)]
    rw [show keysOf t = t.map (fun p => p.1) from rfl] at ih
    rw [ih k v hk.2]
    rfl

theorem foldl_dinsert_from (f : List Char → Bool) :
    ∀ (rs dl : List (List Char)),
      rs.foldl (fun acc r => dinsert r (f r) acc) (dl.map (fun k => (k, f k))) =
        (rs.foldl (fun acc r => if r ∈ acc then acc else acc ++ [r]) dl).map
          (fun k => (k, f k)) := by
  intro rs
  induction rs with
  | nil => intro dl; rfl
  | cons r rs' ih =>
    intro dl
    simp only [List.foldl_cons]
    by_cases hr : r ∈ dl
    · rw [dinsert_mem_same f dl r hr, if_pos hr]
      exact ih dl
    · rw [dinsert_append _ r (f r) (by rw [keysOf_map]; exact hr), if_neg hr]
      rw [show dl.map (fun k => (k, f k)) ++ [(r, f r)] =
        (dl ++ [r]).map (fun k => (k, f k)) by simp]
      exact ih (dl ++ [r])

theorem validate_recipients_eq (rs : List (List Char)) :
    validate_recipients rs =
      (dedupKeys rs).map (fun k => (k, validate_email k)) := by
  unfold validate_recipients dedupKeys
  simpa using foldl_dinsert_from validate_email rs []

theorem dedup_foldl_nodup : ∀ (rs dl : List (List Char)), dl.Nodup →
    (rs.foldl (fun acc r => if r ∈ acc then acc else acc ++ [r]) dl).Nodup := by
  intro rs
  induction rs with
  | nil => intro dl h; exact h
  | cons r rs' ih =>
    intro dl hdl
    simp only [List.foldl_cons]
    by_cases hr : r ∈ dl
    · rw [if_pos hr]; exact ih dl hdl
    · rw [if_neg hr]
      refine ih (dl ++ [r]) ?_
      rw [List.nodup_append]
      exact ⟨hdl, List.nodup_singleton r, by
        intro a ha hb
        simp at hb
        exact hr (hb ▸ ha)⟩

theorem dedup_foldl_le : ∀ (rs dl : List (List Char)),
    (rs.foldl (fun acc r => if r ∈ acc then acc else acc ++ [r]) dl).length ≤
      dl.length + rs.length := by
  intro rs
  induction rs with
  | nil => intro dl; simp
  | cons r rs' ih =>
    intro dl
    simp only [List.foldl_cons]
    by_cases hr : r ∈ dl
    · rw [if_pos hr]
      have := ih dl
      simp only [List.length_cons]
      omega
    · rw [if_neg hr]
      have := ih (dl ++ [r])
      simp only [List.length_append, List.length_cons, List.length_nil] at this ⊢
      omega

theorem dedup_foldl_lt : ∀ (rs dl : List (List Char)),
    (¬ rs.Nodup ∨ ∃ r ∈ rs, r ∈ dl) →
    (rs.foldl (fun acc r => if r ∈ acc then acc else acc ++ [r]) dl).length <
      dl.length + rs.length := by
  intro rs
  induction rs with
  | nil =>
    intro dl h
    rcases h with h | ⟨r, hr, _⟩
    · exact absurd List.nodup_nil h
    · simp at hr
  | cons r rs' ih =>
    intro dl h
    simp only [List.foldl_cons]
    by_cases hr : r ∈ dl
    · rw [if_pos hr]
      have := dedup_foldl_le rs' dl
      simp only [List.length_cons]
      omega
    · rw [if_neg hr]
      have hnext : ¬ rs'.Nodup ∨ ∃ x ∈ rs', x ∈ dl ++ [r] := by
        rcases h with h | ⟨x, hx, hxdl⟩
        · rw [List.nodup_cons] at h
          push_neg at h
          by_cases hmem : r ∈ rs'
          · exact Or.inr ⟨r, hmem, by simp⟩
          · exact Or.inl (fun hn => h hmem hn)
        · rcases List.mem_cons.mp hx with hx0 | hx0
          · exact absurd (hx0 ▸ hxdl) hr
          · exact Or.inr ⟨x, hx0, List.mem_append_left _ hxdl⟩
      have := ih (dl ++ [r]) hnext
      simp only [List.length_append, List.length_cons, List.length_nil] at this ⊢
      omega

theorem dedup_foldl_skip : ∀ (rs dl : List (List Char)),
    (∀ r ∈ rs, r ∉ dl) → rs.Nodup →
    rs.foldl (fun acc r => if r ∈ acc then acc else acc ++ [r]) dl = dl ++ rs := by
  intro rs
  induction rs with
  | nil => intro dl _ _; simp
  | cons r rs' ih =>
    intro dl hnot hnd
    simp only [List.foldl_cons]
    rw [if_neg (hnot r (List.mem_cons_self _ _))]
    rw [List.nodup_cons] at hnd
    rw [ih (dl ++ [r]) ?_ hnd.2]
    · simp
    · intro x hx
      simp only [List.mem_append, List.mem_singleton]
      push_neg
      exact ⟨hnot x (List.mem_cons_of_mem _ hx), fun h => hnd.1 (h ▸ hx)⟩

theorem dedupKeys_nodup (rs : List (List Char)) : (dedupKeys rs).Nodup :=
  dedup_foldl_nodup rs [] List.nodup_nil

theorem dedupKeys_length_le (rs : List (List Char)) :
    (dedupKeys rs).length ≤ rs.length := by
  have := dedup_foldl_le rs []
  simpa [dedupKeys] using this

theorem dedupKeys_length_lt {rs : List (List Char)} (h : ¬ rs.Nodup) :
    (dedupKeys rs).length < rs.length := by
  have := dedup_foldl_lt rs [] (Or.inl h)
  simpa [dedupKeys] using this

theorem send_to_multiple_eq_map (sendOk : List Char → Bool)
    (l : List (List Char)) (h : l.Nodup) :
    send_to_multiple_recipients sendOk l = l.map (fun r => (r, sendOk r)) := by
  unfold send_to_multiple_recipients
  have h1 := foldl_dinsert_from sendOk l []
  simp only [List.map_nil] at h1
  rw [h1, dedup_foldl_skip l [] (by intro r _; simp) h]
  simp

theorem filter_map_pair_pos (f : List Char → Bool) :
    ∀ dl : List (List Char),
      ((dl.map (fun k => (k, f k))).filter (fun p => p.2)).map (fun p => p.1) =
        dl.filter f := by
  intro dl
  induction dl with
  | nil => rfl
  | cons a t ih =>
    simp only [List.map_cons, List.filter_cons]
    cases hfa : f a with
    | false => simpa [hfa] using ih
    | true => simpa [hfa] using ih

theorem filter_map_pair_neg (f : List Char → Bool) :
    ∀ dl : List (List Char),
      ((dl.map (fun k => (k, f k))).filter (fun p => !p.2)).map (fun p => p.1) =
        dl.filter (fun k => !f k) := by
  intro dl
  induction dl with
  | nil => rfl
  | cons a t ih =>
    simp only [List.map_cons, List.filter_cons]
    cases hfa : f a with
    | false => simpa [hfa] using ih
    | true => simpa [hfa] using ih

theorem length_filter_add_not (f : List Char → Bool) :
    ∀ dl : List (List Char),
      (dl.filter f).length + (dl.filter (fun k => !f k)).length = dl.length := by
  intro dl
  induction dl with
  | nil => rfl
  | cons a t ih =>
    simp only [List.filter_cons]
    cases hfa : f a with
    | false => simp [hfa]; omega
    | true => simp [hfa]; omega

theorem length_filter_map_pair (f : List Char → Bool) (dl : List (List Char)) :
    ((dl.map (fun k => (k, f k))).filter (fun p => p.2)).length =
      (dl.filter f).length := by
  have h := congrArg List.length (filter_map_pair_pos f dl)
  simpa using h

theorem if_isEmpty_send (sendOk : List Char → Bool) (l : List (List Char)) :
    (if !l.isEmpty then send_to_multiple_recipients sendOk l else []) =
      send_to_multiple_recipients sendOk l := by
  cases l with
  | nil => simp [send_to_multiple_recipients]
  | cons a t => simp

theorem send_batch_true_eq (sendOk : List Char → Bool) (rs : List (List Char)) :
    send_batch_with_validation sendOk rs true =
      { validation := (dedupKeys rs).map (fun k => (k, validate_email k)),
        sending := ((dedupKeys rs).filter (fun r => validate_email r)).map
          (fun r => (r, sendOk r)),
        total_recipients := rs.length,
        valid_emails := ((dedupKeys rs).filter (fun r => validate_email r)).length,
        invalid_emails :=
          ((dedupKeys rs).filter (fun r => !validate_email r)).length,
        emails_sent := (((dedupKeys rs).filter (fun r => validate_email r)).filter
          (fun r => sendOk r)).length,
        emails_failed :=
          ((dedupKeys rs).filter (fun r => validate_email r)).length -
            (((dedupKeys rs).filter (fun r => validate_email r)).filter
              (fun r => sendOk r)).length,
        error := none } := by
  unfold send_batch_with_validation
  rw [validate_recipients_eq]
  simp only [Bool.not_true, Bool.and_false, Bool.false_eq_true, if_false,
    filter_map_pair_pos, filter_map_pair_neg, if_isEmpty_send]
  rw [send_to_multiple_eq_map sendOk _
    ((dedupKeys_nodup rs).filter (fun r => validate_email r))]
  rw [length_filter_map_pair]
  have hlen : (((dedupKeys rs).filter (fun r => validate_email r)).map
      (fun r => (r, sendOk r))).length =
      ((dedupKeys rs).filter (fun r => validate_email r)).length := by simp
  rw [hlen]

theorem send_batch_false_invalid_eq (sendOk : List Char → Bool)
    (rs : List (List Char))
    (h : (dedupKeys rs).filter (fun r => !validate_email r) ≠ []) :
    send_batch_with_validation sendOk rs false =
      { validation := (dedupKeys rs).map (fun k => (k, validate_email k)),
        sending := [],
        total_recipients := rs.length,
        valid_emails := ((dedupKeys rs).filter (fun r => validate_email r)).length,
        invalid_emails :=
          ((dedupKeys rs).filter (fun r => !validate_email r)).length,
        emails_sent := 0,
        emails_failed := 0,
        error := some ((dedupKeys rs).filter (fun r => !validate_email r)) } := by
  unfold send_batch_with_validation
  rw [validate_recipients_eq]
  simp only [Bool.not_false, Bool.and_true, filter_map_pair_pos, filter_map_pair_neg]
  rw [if_pos (by simp [List.isEmpty_iff, h])]

/-- C6: batch dispatch validates all recipients first; with `skip_invalid`
false and a non-empty invalid set it returns the invalid set as an error
before any send, sending nothing; with `skip_invalid` true it sends
individually to exactly the distinct valid recipients — each entry's
outcome is that recipient's own transport result — and fills the summary
counts; for `[good@x.com, bad]` with `skip_invalid` true the summary says
valid=1, invalid=1 and only `good@x.com` is attempted. -/
theorem claim_C6_batch_validation (sendOk : List Char → Bool)
    (rs : List (List Char)) :
    ((dedupKeys rs).filter (fun r => !validate_email r) ≠ [] →
      (send_batch_with_validation sendOk rs false).error =
        some ((dedupKeys rs).filter (fun r => !validate_email r)) ∧
      (send_batch_with_validation sendOk rs false).sending = [] ∧
      (send_batch_with_validation sendOk rs false).emails_sent = 0) ∧
    ((send_batch_with_validation sendOk rs true).error = none ∧
     (send_batch_with_validation sendOk rs true).sending =
       ((dedupKeys rs).filter (fun r => validate_email r)).map
         (fun r => (r, sendOk r)) ∧
     (send_batch_with_validation sendOk rs true).total_recipients = rs.length ∧
     (send_batch_with_validation sendOk rs true).valid_emails =
       ((dedupKeys rs).filter (fun r => validate_email r)).length ∧
     (send_batch_with_validation sendOk rs true).invalid_emails =
       ((dedupKeys rs).filter (fun r => !validate_email r)).length ∧
     (send_batch_with_validation sendOk rs true).emails_sent =
       (((dedupKeys rs).filter (fun r => validate_email r)).filter
         (fun r => sendOk r)).length ∧
     (send_batch_with_validation sendOk rs true).emails_failed =
       ((dedupKeys rs).filter (fun r => validate_email r)).length -
         (((dedupKeys rs).filter (fun r => validate_email r)).filter
           (fun r => sendOk r)).length) ∧
    ((send_batch_with_validation sendOk
        [strL "good@x.com", strL "bad"] true).valid_emails = 1 ∧
     (send_batch_with_validation sendOk
        [strL "good@x.com", strL "bad"] true).invalid_emails = 1 ∧
     (send_batch_with_validation sendOk
        [strL "good@x.com", strL "bad"] true).sending =
       [(strL "good@x.com", sendOk (strL "good@x.com"))] ∧
     (send_batch_with_validation sendOk
        [strL "good@x.com", strL "bad"] false).sending = [] ∧
     (send_batch_with_validation sendOk
        [strL "good@x.com", strL "bad"] false).error = some [strL "bad"]) := by
  refine ⟨?_, ?_, ?_⟩
  · intro h
    rw [send_batch_false_invalid_eq sendOk rs h]
    exact ⟨rfl, rfl, rfl⟩
  · rw [send_batch_true_eq]
    exact ⟨rfl, rfl, rfl, rfl, rfl, rfl, rfl⟩
  · rw [send_batch_true_eq,
      send_batch_false_invalid_eq sendOk [strL "good@x.com", strL "bad"] (by decide)]
    refine ⟨?_, ?_, ?_, rfl, ?_⟩
    · show ((dedupKeys [strL "good@x.com", strL "bad"]).filter
        (fun r => validate_email r)).length = 1
      decide
    · show ((dedupKeys [strL "good@x.com", strL "bad"]).filter
        (fun r => !validate_email r)).length = 1
      decide
    · rw [show (dedupKeys [strL "good@x.com", strL "bad"]).filter
          (fun r => validate_email r) = [strL "good@x.com"] from by decide]
      rfl
    · show some ((dedupKeys [strL "good@x.com", strL "bad"]).filter
        (fun r => !validate_email r)) = some [strL "bad"]
      decide

/-- C10: validation and sending results are keyed by address, so a
duplicated recipient yields one entry and at most one send attempt; the
summary's valid + invalid counts equal the number of distinct addresses,
which is at most the list's length and strictly below `total_recipients`
whenever the list holds a duplicate. -/
theorem claim_C10_duplicate_recipients (sendOk : List Char → Bool)
    (rs : List (List Char)) :
    (keysOf (send_batch_with_validation sendOk rs true).validation).Nodup ∧
    (keysOf (send_batch_with_validation sendOk rs true).sending).Nodup ∧
    (send_batch_with_validation sendOk rs true).valid_emails +
      (send_batch_with_validation sendOk rs true).invalid_emails =
      (dedupKeys rs).length ∧
    (dedupKeys rs).length ≤ rs.length ∧
    (¬ rs.Nodup →
      (send_batch_with_validation sendOk rs true).valid_emails +
        (send_batch_with_validation sendOk rs true).invalid_emails <
        (send_batch_with_validation sendOk rs true).total_recipients) := by
  rw [send_batch_true_eq]
  refine ⟨?_, ?_, ?_, dedupKeys_length_le rs, ?_⟩
  · rw [keysOf_map]
    exact dedupKeys_nodup rs
  · rw [keysOf_map]
    exact (dedupKeys_nodup rs).filter _
  · exact length_filter_add_not _ _
  · intro h
    have h1 := dedupKeys_length_lt h
    have h2 := length_filter_add_not (fun r => validate_email r) (dedupKeys rs)
    simp only []
    omega

theorem wsTokensAux_ne : ∀ (t cur : List Char), cur ≠ [] →
    wsTokensAux cur t =
      (cur.reverse ++ t.takeWhile (fun x => !pySpace x)) ::
        wsTokensAux [] (t.dropWhile (fun x => !pySpace x)) := by
  intro t
  induction t with
  | nil =>
    intro cur h
    simp [wsTokensAux, h]
  | cons c t' ih =>
    intro cur h
    by_cases hc : pySpace c = true
    · simp only [wsTokensAux, hc, if_true, if_neg h]
      rw [List.takeWhile_cons, List.dropWhile_cons]
      rw [if_neg (by simp [hc]), if_neg (by simp [hc])]
      simp [wsTokensAux, hc]
    · rw [Bool.not_eq_true] at hc
      simp only [wsTokensAux, hc, Bool.false_eq_true, if_false]
      rw [ih (c :: cur) (by simp)]
      rw [List.takeWhile_cons, List.dropWhile_cons]
      rw [if_pos (by simp [hc]), if_pos (by simp [hc])]
      simp

theorem wsTokens_cons_space {c : Char} {t : List Char} (h : pySpace c = true) :
    wsTokens (c :: t) = wsTokens t := by
  simp [wsTokens, wsTokensAux, h]

theorem wsTokens_cons_tok {c : Char} {t : List Char} (h : pySpace c = false) :
    wsTokens (c :: t) =
      (c :: t.takeWhile (fun x => !pySpace x)) ::
        wsTokens (t.dropWhile (fun x => !pySpace x)) := by
  show wsTokensAux [] (c :: t) = _
  simp only [wsTokensAux, h, Bool.false_eq_true, if_false]
  rw [wsTokensAux_ne t [c] (by simp)]
  rfl

theorem wsTokensAux_append_spaces :
    ∀ (y cur u : List Char), (∀ s ∈ u, pySpace s = true) →
      wsTokensAux cur (y ++ u) = wsTokensAux cur y := by
  intro y
  induction y with
  | nil =>
    intro cur u hu
    induction u generalizing cur with
    | nil => rfl
    | cons s u' ihu =>
      have hs : pySpace s = true := hu s (List.mem_cons_self _ _)
      have hu' : ∀ x ∈ u', pySpace x = true :=
        fun x hx => hu x (List.mem_cons_of_mem _ hx)
      simp only [List.nil_append, wsTokensAux, hs, if_true]
      by_cases hcur : cur = []
      · rw [if_pos hcur, hcur]
        have := ihu [] hu'
        simpa [wsTokensAux] using this
      · rw [if_neg hcur]
        have := ihu [] hu'
        simp only [List.nil_append] at this
        rw [show wsTokensAux [] u' = wsTokensAux [] ([] : List Char) from this]
        simp [wsTokensAux, hcur]
  | cons c t ih =>
    intro cur u hu
    by_cases hc : pySpace c = true
    · simp only [List.cons_append, wsTokensAux, hc, if_true, List.append_eq]
      by_cases hcur : cur = []
      · rw [if_pos hcur, if_pos hcur, ih [] u hu]
      · rw [if_neg hcur, if_neg hcur, ih [] u hu]
    · rw [Bool.not_eq_true] at hc
      simp only [List.cons_append, wsTokensAux, hc, Bool.false_eq_true, if_false,
        List.append_eq]
      exact ih (c :: cur) u hu

theorem wsTokens_append_spaces {y u : List Char}
    (hu : ∀ s ∈ u, pySpace s = true) : wsTokens (y ++ u) = wsTokens y :=
  wsTokensAux_append_spaces y [] u hu

theorem wsTokens_lstrip (l : List Char) : wsTokens (lstrip l) = wsTokens l := by
  induction l with
  | nil => rfl
  | cons c t ih =>
    by_cases hc : pySpace c = true
    · rw [show lstrip (c :: t) = lstrip t by
        unfold lstrip; rw [List.dropWhile_cons, if_pos (by simp [hc])]]
      rw [ih, wsTokens_cons_space hc]
    · rw [Bool.not_eq_true] at hc
      rw [show lstrip (c :: t) = c :: t by
        unfold lstrip; rw [List.dropWhile_cons, if_neg (by simp [hc])]]

theorem wsTokens_rstrip (l : List Char) : wsTokens (rstrip l) = wsTokens l := by
  obtain ⟨u, hu, hus⟩ := rstrip_prefix l
  conv_rhs => rw [hu]
  rw [wsTokens_append_spaces hus]

theorem wsTokens_pstrip (l : List Char) : wsTokens (pstrip l) = wsTokens l := by
  unfold pstrip
  rw [wsTokens_rstrip, wsTokens_lstrip]

theorem alpha_word {c : Char} (h : c.isAlpha = true) : wordChar c = true := by
  simp [wordChar, Char.isAlphanum, h]

theorem word_not_space {c : Char} (h : wordChar c = true) : pySpace c = false := by
  by_contra hs
  rw [Bool.not_eq_false] at hs
  rw [(space_not_word hs).1] at h
  exact Bool.false_ne_true h

theorem alpha_ne_hash {c : Char} (h : c.isAlpha = true) : c ≠ '#' := by
  intro he
  rw [he] at h
  exact absurd h (by decide)

theorem takeWhile_all_append {q : Char → Bool} :
    ∀ {u : List Char} (v : List Char), (∀ x ∈ u, q x = true) →
      List.takeWhile q (u ++ v) = u ++ List.takeWhile q v := by
  intro u
  induction u with
  | nil => intro v _; rfl
  | cons a t ih =>
    intro v hu
    rw [List.cons_append, List.takeWhile_cons,
      if_pos (hu a (List.mem_cons_self _ _)), List.cons_append,
      ih v (fun x hx => hu x (List.mem_cons_of_mem _ hx))]

theorem dropWhile_all_append {q : Char → Bool} :
    ∀ {u : List Char} (v : List Char), (∀ x ∈ u, q x = true) →
      List.dropWhile q (u ++ v) = List.dropWhile q v := by
  intro u
  induction u with
  | nil => intro v _; rfl
  | cons a t ih =>
    intro v hu
    rw [List.cons_append, List.dropWhile_cons,
      if_pos (hu a (List.mem_cons_self _ _)),
      ih v (fun x hx => hu x (List.mem_cons_of_mem _ hx))]

theorem hashMark_word_pass :
    ∀ (w : List Char) (rest : List Char) (p : Char), wordChar p = true →
      (∀ x ∈ w, wordChar x = true) →
      hashMark (some p) (w ++ rest) =
        w ++ hashMark (some (w.getLastD p)) rest := by
  intro w
  induction w with
  | nil => intro rest p _ _; rfl
  | cons x w' ih =>
    intro rest p hp hw
    have hx : wordChar x = true := hw x (List.mem_cons_self _ _)
    rw [List.cons_append,
      show hashMark (some p) (x :: (w' ++ rest)) =
        x :: hashMark (some x) (w' ++ rest) by
      simp only [hashMark]
      rw [if_neg (by simp [boundaryOk, hp])]]
    rw [ih rest x hx (fun y hy => hw y (List.mem_cons_of_mem _ hy))]
    rw [List.getLastD_cons]
    rfl

theorem getLastD_word {c : Char} (hc : wordChar c = true) {tt : List Char}
    (htt : ∀ x ∈ tt, wordChar x = true) : wordChar (tt.getLastD c) = true := by
  by_cases h : tt = []
  · rw [h]; simpa using hc
  · rw [List.getLastD_eq_getLast?, List.getLast?_eq_getLast tt h, Option.getD_some]
    exact htt _ (List.getLast_mem h)

theorem hashMark_tokens_aux : ∀ (n : Nat) (l : List Char), l.length ≤ n →
    (∀ tok ∈ wsTokens l, shapedTok tok = true) →
    ∀ p, boundaryOk p = true →
    wsTokens (hashMark p l) = (wsTokens l).map hashTokF := by
  intro n
  induction n with
  | zero =>
    intro l hl _ p _
    have h0 : l = [] := List.length_eq_zero.mp (Nat.le_zero.mp hl)
    subst h0
    rfl
  | succ n ih =>
    intro l hl hsh p hp
    cases l with
    | nil => rfl
    | cons c t =>
      rw [List.length_cons] at hl
      have hlt : t.length ≤ n := by omega
      by_cases hcsp : pySpace c = true
      · have hca : c.isAlpha = false := (space_not_word hcsp).2.2
        rw [show hashMark p (c :: t) = c :: hashMark (some c) t by
          simp only [hashMark]; rw [if_neg (by simp [hca])]]
        rw [wsTokens_cons_space hcsp, wsTokens_cons_space hcsp]
        exact ih t hlt
          (fun tok htok => hsh tok (by rwa [wsTokens_cons_space hcsp]))
          (some c) (boundaryOk_space hcsp)
      · rw [Bool.not_eq_true] at hcsp
        have htsplit : t = t.takeWhile (fun x => !pySpace x) ++
            t.dropWhile (fun x => !pySpace x) :=
          (List.takeWhile_append_dropWhile _ _).symm
        have hwst : wsTokens (c :: t) =
            (c :: t.takeWhile (fun x => !pySpace x)) ::
              wsTokens (t.dropWhile (fun x => !pySpace x)) :=
          wsTokens_cons_tok hcsp
        have hshtok : shapedTok (c :: t.takeWhile (fun x => !pySpace x)) = true :=
          hsh _ (by rw [hwst]; exact List.mem_cons_self _ _)
        have hshrest : ∀ tok ∈ wsTokens (t.dropWhile (fun x => !pySpace x)),
            shapedTok tok = true :=
          fun tok htok => hsh tok (by rw [hwst]; exact List.mem_cons_of_mem _ htok)
        have hrestlen : (t.dropWhile (fun x => !pySpace x)).length ≤ n :=
          le_trans (List.dropWhile_sublist _).length_le hlt
        have hMtok : ∀ pc : Char, wordChar pc = true →
            wsTokens (hashMark (some pc) (t.dropWhile (fun x => !pySpace x))) =
              (wsTokens (t.dropWhile (fun x => !pySpace x))).map hashTokF ∧
            List.takeWhile (fun x => !pySpace x)
              (hashMark (some pc) (t.dropWhile (fun x => !pySpace x))) = [] ∧
            List.dropWhile (fun x => !pySpace x)
              (hashMark (some pc) (t.dropWhile (fun x => !pySpace x))) =
              hashMark (some pc) (t.dropWhile (fun x => !pySpace x)) := by
          intro pc _
          cases hre : t.dropWhile (fun x => !pySpace x) with
          | nil => exact ⟨rfl, rfl, rfl⟩
          | cons s r₃ =>
            have hs : pySpace s = true := by
              have hhead := dropWhile_head_false
                (p := fun x => !pySpace x) hre
              simpa using hhead
            have hsa : s.isAlpha = false := (space_not_word hs).2.2
            have hm1 : hashMark (some pc) (s :: r₃) = s :: hashMark (some s) r₃ := by
              simp only [hashMark]; rw [if_neg (by simp [hsa])]
            have hr₃len : r₃.length ≤ n := by
              have := hre ▸ hrestlen
              simp only [List.length_cons] at this
              omega
            have hshr₃ : ∀ tok ∈ wsTokens r₃, shapedTok tok = true := by
              intro tok htok
              apply hshrest
              rw [hre, wsTokens_cons_space hs]
              exact htok
            refine ⟨?_, ?_, ?_⟩
            · rw [hm1, wsTokens_cons_space hs, wsTokens_cons_space hs]
              exact ih r₃ hr₃len hshr₃ (some s) (boundaryOk_space hs)
            · rw [hm1, List.takeWhile_cons, if_neg (by simp [hs])]
            · rw [hm1, List.dropWhile_cons, if_neg (by simp [hs])]
        simp only [shapedTok, Bool.or_eq_true] at hshtok
        rcases hshtok with hbare | hhash
        · rw [Bool.and_eq_true] at hbare
          obtain ⟨hca, httw⟩ := hbare
          have httw' : ∀ x ∈ t.takeWhile (fun x => !pySpace x), wordChar x = true :=
            List.all_eq_true.mp httw
          have hlastw : wordChar
              ((t.takeWhile (fun x => !pySpace x)).getLastD c) = true :=
            getLastD_word (alpha_word hca) httw'
          obtain ⟨hM1, hM2, hM3⟩ :=
            hMtok ((t.takeWhile (fun x => !pySpace x)).getLastD c) hlastw
          have hstep : hashMark p (c :: t) =
              '#' :: c :: (t.takeWhile (fun x => !pySpace x) ++
                hashMark (some ((t.takeWhile (fun x => !pySpace x)).getLastD c))
                  (t.dropWhile (fun x => !pySpace x))) := by
            simp only [hashMark]
            rw [if_pos (by simp [hca, hp])]
            congr 1
            congr 1
            conv_lhs => rw [htsplit]
            exact hashMark_word_pass _ _ c (alpha_word hca) httw'
          rw [hstep]
          have hnotsp : ∀ x ∈ t.takeWhile (fun x => !pySpace x),
              (!pySpace x) = true :=
            fun x hx => by simp [word_not_space (httw' x hx)]
          rw [wsTokens_cons_tok (c := '#') (by decide)]
          rw [List.takeWhile_cons, if_pos (by simp [word_not_space (alpha_word hca)]),
            takeWhile_all_append _ hnotsp, hM2, List.append_nil]
          rw [List.dropWhile_cons, if_pos (by simp [word_not_space (alpha_word hca)]),
            dropWhile_all_append _ hnotsp, hM3]
          rw [hM1, hwst, List.map_cons]
          congr 1
          unfold hashTokF
          rw [if_neg (by simpa using (alpha_ne_hash hca))]
        · rw [Bool.and_eq_true] at hhash
          obtain ⟨hch, hmatch⟩ := hhash
          have hch' : c = '#' := by simpa using hch
          subst hch'
          cases htt : t.takeWhile (fun x => !pySpace x) with
          | nil => rw [htt] at hmatch; simp at hmatch
          | cons d w' =>
            rw [htt] at hmatch
            rw [show (match d :: w' with
                | d :: r' => d.isAlpha && r'.all wordChar
                | [] => false) = (d.isAlpha && w'.all wordChar) from rfl,
              Bool.and_eq_true] at hmatch
            obtain ⟨hda, hw'⟩ := hmatch
            have hw'' : ∀ x ∈ w', wordChar x = true := List.all_eq_true.mp hw'
            have hlastw : wordChar (w'.getLastD d) = true :=
              getLastD_word (alpha_word hda) hw''
            obtain ⟨hM1, hM2, hM3⟩ := hMtok (w'.getLastD d) hlastw
            have hstep : hashMark p ('#' :: t) =
                '#' :: d :: (w' ++
                  hashMark (some (w'.getLastD d))
                    (t.dropWhile (fun x => !pySpace x))) := by
              simp only [hashMark]
              rw [if_neg (by simp)]
              congr 1
              conv_lhs => rw [htsplit, htt]
              rw [List.cons_append,
                show hashMark (some '#')
                  (d :: (w' ++ t.dropWhile (fun x => !pySpace x))) =
                  d :: hashMark (some d)
                    (w' ++ t.dropWhile (fun x => !pySpace x)) by
                simp only [hashMark]
                rw [if_neg (by simp [boundaryOk])]]
              rw [hashMark_word_pass _ _ d (alpha_word hda) hw'']
            rw [hstep]
            have hnotsp : ∀ x ∈ w', (!pySpace x) = true :=
              fun x hx => by simp [word_not_space (hw'' x hx)]
            rw [wsTokens_cons_tok (c := '#') (by decide)]
            rw [List.takeWhile_cons, if_pos (by simp [word_not_space (alpha_word hda)]),
              takeWhile_all_append _ hnotsp, hM2, List.append_nil]
            rw [List.dropWhile_cons, if_pos (by simp [word_not_space (alpha_word hda)]),
              dropWhile_all_append _ hnotsp, hM3]
            rw [hM1, hwst, htt, List.map_cons]
            congr 1

theorem wsTokensAux_mem_cur : ∀ (t cur : List Char) (x : Char), x ∈ cur →
    ∃ tok ∈ wsTokensAux cur t, x ∈ tok := by
  intro t
  induction t with
  | nil =>
    intro cur x hx
    have hne : cur ≠ [] := by intro h0; rw [h0] at hx; simp at hx
    refine ⟨cur.reverse, ?_, List.mem_reverse.mpr hx⟩
    simp [wsTokensAux, hne]
  | cons c t' ih =>
    intro cur x hx
    have hne : cur ≠ [] := by intro h0; rw [h0] at hx; simp at hx
    by_cases hc : pySpace c = true
    · refine ⟨cur.reverse, ?_, List.mem_reverse.mpr hx⟩
      simp [wsTokensAux, hc, hne]
    · rw [Bool.not_eq_true] at hc
      have := ih (c :: cur) x (List.mem_cons_of_mem _ hx)
      simpa [wsTokensAux, hc] using this

theorem mem_wsTokens_char_aux : ∀ (l cur : List Char) (x : Char), x ∈ l →
    pySpace x = true ∨ ∃ tok ∈ wsTokensAux cur l, x ∈ tok := by
  intro l
  induction l with
  | nil => intro cur x hx; simp at hx
  | cons c t ih =>
    intro cur x hx
    by_cases hc : pySpace c = true
    · rcases List.mem_cons.mp hx with hx0 | hx0
      · exact Or.inl (hx0 ▸ hc)
      · rcases ih [] x hx0 with hs | ⟨tok, htok, hxin⟩
        · exact Or.inl hs
        · refine Or.inr ⟨tok, ?_, hxin⟩
          by_cases hcur : cur = []
          · simpa [wsTokensAux, hc, hcur] using htok
          · simp only [wsTokensAux, hc, if_true, if_neg hcur]
            exact List.mem_cons_of_mem _ htok
    · rw [Bool.not_eq_true] at hc
      rcases List.mem_cons.mp hx with hx0 | hx0
      · subst hx0
        refine Or.inr ?_
        have := wsTokensAux_mem_cur t (x :: cur) x (List.mem_cons_self _ _)
        simpa [wsTokensAux, hc] using this
      · have := ih (c :: cur) x hx0
        simpa [wsTokensAux, hc] using this

theorem mem_wsTokens_char {l : List Char} {x : Char} (hx : x ∈ l) :
    pySpace x = true ∨ ∃ tok ∈ wsTokens l, x ∈ tok :=
  mem_wsTokens_char_aux l [] x hx

theorem shaped_chars {tok : List Char} (h : shapedTok tok = true) :
    ∀ x ∈ tok, x = '#' ∨ wordChar x = true := by
  cases tok with
  | nil => simp [shapedTok] at h
  | cons c r =>
    simp only [shapedTok, Bool.or_eq_true, Bool.and_eq_true] at h
    intro x hx
    rcases h with ⟨hca, hall⟩ | ⟨hch, hmatch⟩
    · rcases List.mem_cons.mp hx with hx0 | hx0
      · exact Or.inr (hx0 ▸ alpha_word hca)
      · exact Or.inr (List.all_eq_true.mp hall x hx0)
    · have hch' : c = '#' := by simpa using hch
      cases hr : r with
      | nil => rw [hr] at hmatch; simp at hmatch
      | cons d r' =>
        rw [hr] at hmatch
        rw [show (match d :: r' with
            | d :: r' => d.isAlpha && r'.all wordChar
            | [] => false) = (d.isAlpha && r'.all wordChar) from rfl,
          Bool.and_eq_true] at hmatch
        rcases List.mem_cons.mp hx with hx0 | hx0
        · exact Or.inl (hx0.trans hch')
        · rw [hr] at hx0
          rcases List.mem_cons.mp hx0 with hx1 | hx1
          · exact Or.inr (hx1 ▸ alpha_word hmatch.1)
          · exact Or.inr (List.all_eq_true.mp hmatch.2 x hx1)

theorem word_or_hash_not_emoji {x : Char} (h : x = '#' ∨ wordChar x = true) :
    (!emojiBasic.contains x) = true := by
  rcases h with h | h
  · subst h; decide
  · by_contra hc
    simp at hc
    have hall : ∀ e ∈ emojiBasic, wordChar e = false := by decide
    rw [hall x hc] at h
    exact Bool.false_ne_true h

theorem space_not_emoji {x : Char} (h : pySpace x = true) :
    (!emojiBasic.contains x) = true := by
  simp only [pySpace, Bool.or_eq_true, decide_eq_true_eq] at h
  rcases h with ((((h | h) | h) | h) | h) | h <;> subst h <;> decide

/-- C4 (amended): for a hashtags field whose whitespace-delimited tokens are
bare words (`[A-Za-z][A-Za-z0-9_]*`) or single-`#`-prefixed words — the
shapes the spec's statement assumes — normalization maps each bare word to
its `#`-prefixed form and leaves prefixed tokens unchanged: afterwards every
token begins with `#` and with exactly one `#` (its second character is a
letter); tokens that already began with `#` are unchanged.  (Unrestricted
fields break the claim: a token `123` gets no `#` and a token `##x` keeps
two, see the counterexample.) -/
theorem claim_C4_hashtag_normalization (h : List Char)
    (hsh : ∀ tok ∈ wsTokens h, shapedTok tok = true) :
    wsTokens (clean_hashtagsF h) = (wsTokens h).map hashTokF ∧
    (∀ tok ∈ wsTokens (clean_hashtagsF h),
      tok.headD ' ' = '#' ∧ tok.tail.headD ' ' ≠ '#') ∧
    (∀ tok ∈ wsTokens h, tok.headD ' ' = '#' → hashTokF tok = tok) := by
  have hmain : wsTokens (clean_hashtagsF h) = (wsTokens h).map hashTokF := by
    by_cases h0 : h = []
    · rw [h0]; rfl
    · unfold clean_hashtagsF
      rw [if_neg h0]
      have hse : stripEmojis emojiBasic h = h := by
        apply List.filter_eq_self.mpr
        intro x hx
        rcases mem_wsTokens_char hx with hs | ⟨tok, htok, hxin⟩
        · exact space_not_emoji hs
        · exact word_or_hash_not_emoji (shaped_chars (hsh tok htok) x hxin)
      rw [hse, wsTokens_pstrip]
      exact hashMark_tokens_aux h.length h (Nat.le_refl _) hsh none rfl
  refine ⟨hmain, ?_, ?_⟩
  · intro tok htok
    rw [hmain] at htok
    obtain ⟨tok₀, htok₀, rfl⟩ := List.mem_map.mp htok
    have hs := hsh tok₀ htok₀
    cases tok₀ with
    | nil => simp [shapedTok] at hs
    | cons c r =>
      simp only [shapedTok, Bool.or_eq_true, Bool.and_eq_true] at hs
      rcases hs with ⟨hca, _⟩ | ⟨hch, hmatch⟩
      · rw [show hashTokF (c :: r) = '#' :: c :: r by
          unfold hashTokF
          rw [if_neg (by simpa using (alpha_ne_hash hca))]]
        exact ⟨rfl, by simpa using (alpha_ne_hash hca)⟩
      · have hch' : c = '#' := by simpa using hch
        subst hch'
        cases hr : r with
        | nil => rw [hr] at hmatch; simp at hmatch
        | cons d r' =>
          rw [hr] at hmatch
          rw [show (match d :: r' with
              | d :: r' => d.isAlpha && r'.all wordChar
              | [] => false) = (d.isAlpha && r'.all wordChar) from rfl,
            Bool.and_eq_true] at hmatch
          rw [show hashTokF ('#' :: d :: r') = '#' :: d :: r' from by
            simp [hashTokF]]
          exact ⟨rfl, by simpa using (alpha_ne_hash hmatch.1)⟩
  · intro tok _ hhead
    unfold hashTokF
    rw [if_pos hhead]

/-- C4 (counterexample): hashtag normalization does not make every token
begin with `#` — the token `123` of the field `123 ##x` is left bare (no
letter starts it), and the token `##x`, which already began with `#`, keeps
two leading `#`, not exactly one. -/
theorem claim_C4_counterexample :
    (wsTokens (clean_hashtagsF (strL "123 ##x"))).all
        (fun tok => tok.headD ' ' = '#') = false ∧
      clean_hashtagsF (strL "123 ##x") = strL "123 ##x" := by
  decide

/-- C4 (witness): the amended theorem applied to the concrete field
`#ai tech`, whose tokens are shaped as assumed; the bare word gains a `#`
and the prefixed token is unchanged. -/
theorem claim_C4_witness :
    wsTokens (clean_hashtagsF (strL "#ai tech")) =
      (wsTokens (strL "#ai tech")).map hashTokF :=
  (claim_C4_hashtag_normalization (strL "#ai tech") (by decide)).1

theorem splitLines_no_nl {l : List Char} (h : '\n' ∉ l) : splitLines l = [l] := by
  induction l with
  | nil => rfl
  | cons c rest ih =>
    have hc : c ≠ '\n' := fun h0 => h (h0 ▸ List.mem_cons_self _ _)
    have hrest : '\n' ∉ rest := fun h0 => h (List.mem_cons_of_mem _ h0)
    simp only [splitLines]
    rw [if_neg hc, ih hrest]

theorem splitLines_append_nl {l : List Char} (X : List Char) (h : '\n' ∉ l) :
    splitLines (l ++ '\n' :: X) = l :: splitLines X := by
  induction l with
  | nil => simp [splitLines]
  | cons c rest ih =>
    have hc : c ≠ '\n' := fun h0 => h (h0 ▸ List.mem_cons_self _ _)
    have hrest : '\n' ∉ rest := fun h0 => h (List.mem_cons_of_mem _ h0)
    simp only [List.cons_append, splitLines]
    rw [if_neg hc, show rest.append ('\n' :: X) = rest ++ '\n' :: X from rfl,
      ih hrest]

theorem splitLines_joinLines : ∀ (ls : List (List Char)), ls ≠ [] →
    (∀ l ∈ ls, '\n' ∉ l) → splitLines (joinLines ls) = ls := by
  intro ls
  induction ls with
  | nil => intro h; exact absurd rfl h
  | cons l ls' ih =>
    intro _ hnl
    cases ls' with
    | nil => exact splitLines_no_nl (hnl l (List.mem_cons_self _ _))
    | cons m ms =>
      rw [show joinLines (l :: m :: ms) = l ++ '\n' :: joinLines (m :: ms) from rfl]
      rw [splitLines_append_nl _ (hnl l (List.mem_cons_self _ _))]
      rw [ih (by simp) (fun x hx => hnl x (List.mem_cons_of_mem _ hx))]

theorem joinLines_cons_cons (a b : List Char) (ls : List (List Char)) :
    joinLines (a :: b :: ls) = a ++ '\n' :: joinLines (b :: ls) := rfl

theorem headD_append_left {xs : List Char} (ys : List Char) (d : Char)
    (h : xs ≠ []) : (xs ++ ys).headD d = xs.headD d := by
  cases xs with
  | nil => exact absurd rfl h
  | cons c t => rfl

theorem getLastD_append_right (xs : List Char) {ys : List Char} (d : Char)
    (h : ys ≠ []) : (xs ++ ys).getLastD d = ys.getLastD d := by
  rw [List.getLastD_eq_getLast?, List.getLastD_eq_getLast?,
    List.getLast?_append_of_ne_nil xs h]

theorem pstrip_label_line {lab t : List Char} (hlab : lab ≠ [])
    (hlabh : pySpace (lab.headD ' ') = false) (ht1 : t ≠ [])
    (ht2 : pstrip t = t) : pstrip (lab ++ t) = lab ++ t := by
  apply pstrip_eq_self_of
  · intro h0
    rcases List.append_eq_nil.mp h0 with ⟨h1, _⟩
    exact hlab h1
  · rw [headD_append_left t ' ' hlab]
    exact hlabh
  · rw [getLastD_append_right lab ' ' ht1]
    exact (head_last_not_space_of_pstrip_fix ht2 ht1).2

theorem occursIn_head_false {pat l : List Char} (h : occursIn pat l = false) :
    pat.isPrefixOf l = false := by
  by_contra hc
  rw [Bool.not_eq_false] at hc
  obtain ⟨r, hr⟩ := isPrefixOf_exists.mp hc
  have h2 : occursIn pat l = true :=
    occursIn_exists.mpr ⟨[], r, by simpa using hr⟩
  rw [h2] at h
  exact absurd h (by decide)

theorem occursIn_tail_false {pat : List Char} {c : Char} {r : List Char}
    (h : occursIn pat (c :: r) = false) : occursIn pat r = false := by
  by_contra hc
  rw [Bool.not_eq_false] at hc
  obtain ⟨u, v, huv⟩ := occursIn_exists.mp hc
  have h2 : occursIn pat (c :: r) = true :=
    occursIn_exists.mpr ⟨c :: u, v, by rw [huv]; rfl⟩
  rw [h2] at h
  exact absurd h (by decide)

theorem occursIn_cons_false {pat : List Char} {c : Char} {r : List Char}
    (h1 : pat.isPrefixOf (c :: r) = false) (h2 : occursIn pat r = false) :
    occursIn pat (c :: r) = false := by
  by_contra hc
  rw [Bool.not_eq_false] at hc
  obtain ⟨u, v, huv⟩ := occursIn_exists.mp hc
  cases u with
  | nil =>
    have h3 : pat.isPrefixOf (c :: r) = true :=
      isPrefixOf_exists.mpr ⟨v, by simpa using huv⟩
    rw [h3] at h1
    exact absurd h1 (by decide)
  | cons a u' =>
    have h3 : c :: r = a :: (u' ++ pat ++ v) := by
      rw [huv]; simp [List.append_assoc]
    have h4 : r = u' ++ pat ++ v := by
      have h6 := h3
      simp only [List.cons.injEq] at h6
      exact h6.2
    have h5 : occursIn pat r = true := occursIn_exists.mpr ⟨u', v, h4⟩
    rw [h5] at h2
    exact absurd h2 (by decide)

theorem bool_neg {b : Bool} (h : b = false) : ¬ (b = true) := by simp [h]

theorem removeAllAux_no_occur : ∀ (fuel : Nat) (pat l : List Char),
    occursIn pat l = false → removeAllAux fuel pat l = l := by
  intro fuel
  induction fuel with
  | zero => intro pat l _; rfl
  | succ f ih =>
    intro pat l hocc
    cases l with
    | nil => rfl
    | cons c r =>
      simp only [removeAllAux]
      rw [if_neg (by
        rw [Bool.and_eq_true]
        rintro ⟨hpre, _⟩
        rw [occursIn_head_false hocc] at hpre
        exact absurd hpre (by decide))]
      rw [ih pat r (occursIn_tail_false hocc)]

theorem replaceRemove_label {pat rest : List Char} (hpat : pat ≠ [])
    (hocc : occursIn pat rest = false) :
    replaceRemove pat (pat ++ rest) = rest := by
  cases pat with
  | nil => exact absurd rfl hpat
  | cons p₀ pt =>
    show removeAllAux ((p₀ :: pt) ++ rest).length (p₀ :: pt)
      ((p₀ :: pt) ++ rest) = rest
    rw [show (p₀ :: pt) ++ rest = p₀ :: (pt ++ rest) from rfl,
      show (p₀ :: (pt ++ rest)).length = (pt ++ rest).length + 1 from rfl]
    simp only [removeAllAux]
    rw [if_pos (by
      rw [Bool.and_eq_true]
      exact ⟨isPrefixOf_exists.mpr ⟨rest, rfl⟩, by simp⟩)]
    rw [show List.drop (p₀ :: pt).length (p₀ :: (pt ++ rest)) = rest from by
      rw [show p₀ :: (pt ++ rest) = (p₀ :: pt) ++ rest from rfl]
      exact List.drop_left _ _]
    exact removeAllAux_no_occur _ _ _ hocc

theorem pstrip_space_cons {t : List Char} (ht2 : pstrip t = t) :
    pstrip (' ' :: t) = t := by
  obtain ⟨hl, hr⟩ := lstrip_fix_rstrip_fix_of_pstrip_fix ht2
  show rstrip (lstrip (' ' :: t)) = t
  rw [show lstrip (' ' :: t) = lstrip t from by
    unfold lstrip; rw [List.dropWhile_cons, if_pos (by decide)]]
  rw [hl]
  exact hr

theorem stepLine_title (st : Option Sec × BlogData) {t : List Char}
    (ht1 : t ≠ []) (ht2 : pstrip t = t)
    (ht4 : occursIn (strL "TITLE:") t = false) :
    stepLine st (strL "TITLE: " ++ t) = (some Sec.title, { st.2 with title := t }) := by
  have hps : pstrip (strL "TITLE: " ++ t) = strL "TITLE: " ++ t :=
    pstrip_label_line (by decide) (by decide) ht1 ht2
  have hpre : (strL "TITLE:").isPrefixOf (strL "TITLE: " ++ t) = true :=
    isPrefixOf_exists.mpr ⟨' ' :: t, rfl⟩
  have hocc2 : occursIn (strL "TITLE:") (' ' :: t) = false :=
    occursIn_cons_false (by rfl) ht4
  have hrr : replaceRemove (strL "TITLE:") (strL "TITLE: " ++ t) = ' ' :: t := by
    rw [show strL "TITLE: " ++ t = strL "TITLE:" ++ (' ' :: t) from rfl]
    exact replaceRemove_label (by decide) hocc2
  simp only [stepLine]
  rw [hps, if_pos hpre, hrr, pstrip_space_cons ht2]

theorem stepLine_content (st : Option Sec × BlogData) {t : List Char}
    (ht1 : t ≠ []) (ht2 : pstrip t = t)
    (ht4 : occursIn (strL "CONTENT:") t = false) :
    stepLine st (strL "CONTENT: " ++ t) =
      (some Sec.content, { st.2 with content := t }) := by
  have hps : pstrip (strL "CONTENT: " ++ t) = strL "CONTENT: " ++ t :=
    pstrip_label_line (by decide) (by decide) ht1 ht2
  have hpre : (strL "CONTENT:").isPrefixOf (strL "CONTENT: " ++ t) = true :=
    isPrefixOf_exists.mpr ⟨' ' :: t, rfl⟩
  have hocc2 : occursIn (strL "CONTENT:") (' ' :: t) = false :=
    occursIn_cons_false (by rfl) ht4
  have hrr : replaceRemove (strL "CONTENT:") (strL "CONTENT: " ++ t) = ' ' :: t := by
    rw [show strL "CONTENT: " ++ t = strL "CONTENT:" ++ (' ' :: t) from rfl]
    exact replaceRemove_label (by decide) hocc2
  simp only [stepLine]
  rw [hps]
  rw [if_neg (bool_neg (by rfl)), if_pos hpre, hrr, pstrip_space_cons ht2]

theorem stepLine_hashtags (st : Option Sec × BlogData) {t : List Char}
    (ht1 : t ≠ []) (ht2 : pstrip t = t)
    (ht4 : occursIn (strL "HASHTAGS:") t = false) :
    stepLine st (strL "HASHTAGS: " ++ t) =
      (some Sec.hashtags, { st.2 with hashtags := t }) := by
  have hps : pstrip (strL "HASHTAGS: " ++ t) = strL "HASHTAGS: " ++ t :=
    pstrip_label_line (by decide) (by decide) ht1 ht2
  have hpre : (strL "HASHTAGS:").isPrefixOf (strL "HASHTAGS: " ++ t) = true :=
    isPrefixOf_exists.mpr ⟨' ' :: t, rfl⟩
  have hocc2 : occursIn (strL "HASHTAGS:") (' ' :: t) = false :=
    occursIn_cons_false (by rfl) ht4
  have hrr : replaceRemove (strL "HASHTAGS:") (strL "HASHTAGS: " ++ t) = ' ' :: t := by
    rw [show strL "HASHTAGS: " ++ t = strL "HASHTAGS:" ++ (' ' :: t) from rfl]
    exact replaceRemove_label (by decide) hocc2
  simp only [stepLine]
  rw [hps]
  rw [if_neg (bool_neg (by rfl)), if_neg (bool_neg (by rfl)), if_pos hpre, hrr,
    pstrip_space_cons ht2]

theorem stepLine_cta (st : Option Sec × BlogData) {t : List Char}
    (ht1 : t ≠ []) (ht2 : pstrip t = t)
    (ht4 : occursIn (strL "CALL_TO_ACTION:") t = false) :
    stepLine st (strL "CALL_TO_ACTION: " ++ t) =
      (some Sec.callToAction, { st.2 with call_to_action := t }) := by
  have hps : pstrip (strL "CALL_TO_ACTION: " ++ t) = strL "CALL_TO_ACTION: " ++ t :=
    pstrip_label_line (by decide) (by decide) ht1 ht2
  have hpre : (strL "CALL_TO_ACTION:").isPrefixOf
      (strL "CALL_TO_ACTION: " ++ t) = true :=
    isPrefixOf_exists.mpr ⟨' ' :: t, rfl⟩
  have hocc2 : occursIn (strL "CALL_TO_ACTION:") (' ' :: t) = false :=
    occursIn_cons_false (by rfl) ht4
  have hrr : replaceRemove (strL "CALL_TO_ACTION:")
      (strL "CALL_TO_ACTION: " ++ t) = ' ' :: t := by
    rw [show strL "CALL_TO_ACTION: " ++ t =
      strL "CALL_TO_ACTION:" ++ (' ' :: t) from rfl]
    exact replaceRemove_label (by decide) hocc2
  simp only [stepLine]
  rw [hps]
  rw [if_neg (bool_neg (by rfl)), if_neg (bool_neg (by rfl)),
    if_neg (bool_neg (by rfl)), if_pos hpre, hrr, pstrip_space_cons ht2]

theorem stepLine_none_skip (bd : BlogData) (l : List Char)
    (h : noLabelLine (pstrip l) = true) :
    stepLine (none, bd) l = (none, bd) := by
  simp only [noLabelLine, Bool.and_eq_true] at h
  obtain ⟨⟨⟨h1, h2⟩, h3⟩, h4⟩ := h
  simp only [stepLine]
  rw [if_neg (bool_neg (by simpa using h1)),
    if_neg (bool_neg (by simpa using h2)),
    if_neg (bool_neg (by simpa using h3)),
    if_neg (bool_neg (by simpa using h4))]

theorem stepLine_continue (sec : Sec) (bd : BlogData) {l : List Char}
    (h1 : pstrip l = l) (h2 : noLabelLine l = true) (h3 : l ≠ []) :
    stepLine (some sec, bd) l = (some sec, appendSec sec l bd) := by
  simp only [noLabelLine, Bool.and_eq_true] at h2
  obtain ⟨⟨⟨g1, g2⟩, g3⟩, g4⟩ := h2
  simp only [stepLine]
  rw [h1]
  rw [if_neg (bool_neg (by simpa using g1)),
    if_neg (bool_neg (by simpa using g2)),
    if_neg (bool_neg (by simpa using g3)),
    if_neg (bool_neg (by simpa using g4)),
    if_pos h3]

theorem foldl_pre (bd : BlogData) : ∀ pre : List (List Char),
    (∀ p ∈ pre, noLabelLine (pstrip p) = true) →
    pre.foldl stepLine (none, bd) = (none, bd) := by
  intro pre
  induction pre with
  | nil => intro _; rfl
  | cons p ps ih =>
    intro h
    rw [List.foldl_cons, stepLine_none_skip bd p (h p (List.mem_cons_self _ _))]
    exact ih (fun x hx => h x (List.mem_cons_of_mem _ hx))

theorem joinLines_assoc (a b : List Char) (ls : List (List Char)) :
    joinLines ((a ++ '\n' :: b) :: ls) = joinLines (a :: b :: ls) := by
  cases ls with
  | nil => rfl
  | cons m ms =>
    rw [joinLines_cons_cons, joinLines_cons_cons, joinLines_cons_cons]
    simp [List.append_assoc]

theorem foldl_content_lines : ∀ (cRest : List (List Char)) (bd : BlogData),
    bd.content ≠ [] →
    (∀ l ∈ cRest, l ≠ [] ∧ pstrip l = l ∧ noLabelLine l = true) →
    cRest.foldl stepLine (some Sec.content, bd) =
      (some Sec.content,
        { bd with content := joinLines (bd.content :: cRest) }) := by
  intro cRest
  induction cRest with
  | nil =>
    intro bd _ _
    rfl
  | cons l ls ih =>
    intro bd hne hl
    obtain ⟨hl1, hl2, hl3⟩ := hl l (List.mem_cons_self _ _)
    rw [List.foldl_cons, stepLine_continue Sec.content bd hl2 hl3 hl1]
    rw [show appendSec Sec.content l bd =
        { bd with content := bd.content ++ '\n' :: l } from by
      unfold appendSec
      rw [if_pos (show getSec Sec.content bd ≠ [] from hne)]
      rfl]
    rw [ih { bd with content := bd.content ++ '\n' :: l }
      (by
        intro h0
        rcases List.append_eq_nil.mp h0 with ⟨_, h2⟩
        simp at h2)
      (fun x hx => hl x (List.mem_cons_of_mem _ hx))]
    rw [show ({ bd with content := bd.content ++ '\n' :: l } : BlogData).content =
      bd.content ++ '\n' :: l from rfl]
    rw [joinLines_assoc]

theorem parse_lines_core (R : List Char) (pre : List (List Char))
    (t c1 : List Char) (cRest : List (List Char))
    (hpreSkip : ∀ p ∈ pre, noLabelLine (pstrip p) = true)
    (ht1 : t ≠ []) (ht2 : pstrip t = t)
    (ht4 : occursIn (strL "TITLE:") t = false)
    (hc1a : c1 ≠ []) (hc1b : pstrip c1 = c1)
    (hc1d : occursIn (strL "CONTENT:") c1 = false)
    (hcr3 : ∀ l ∈ cRest, l ≠ [] ∧ pstrip l = l ∧ noLabelLine l = true) :
    List.foldl stepLine (none, BlogData.mk [] [] [] [] R)
      (pre ++ [strL "TITLE: " ++ t] ++ [strL "CONTENT: " ++ c1] ++ cRest) =
      (some Sec.content, BlogData.mk t (joinLines (c1 :: cRest)) [] [] R) := by
  simp only [List.foldl_append, List.foldl_cons, List.foldl_nil]
  rw [foldl_pre _ pre hpreSkip]
  rw [stepLine_title _ ht1 ht2 ht4]
  rw [stepLine_content _ hc1a hc1b hc1d]
  exact foldl_content_lines cRest _ hc1a hcr3

/-- C5: parser round-trip, amended. For a synthetic response built from a
no-label preamble, `TITLE:`/`CONTENT:` sections (content possibly multi-line),
and optional `HASHTAGS:`/`CALL_TO_ACTION:` sections in order — with stripped,
non-empty, label-free section bodies — the parsed record's fields equal the
section bodies (content newline-joined, an omitted optional section giving an
empty field, the preamble dropped, no failure possible since
`parse_blog_response` is total by construction) PROVIDED the bodies are fixed
points of the field sanitizers: the code pipes the parsed record through
`_clean_content`, so in general fields equal the sanitized bodies, not the
bodies themselves (see the counterexample). -/
theorem claim_C5_parser_roundtrip
    (pre : List (List Char)) (t c1 : List Char) (cRest : List (List Char))
    (hs cta : List Char) (hasH hasC : Bool)
    (hpre : ∀ p ∈ pre, '\n' ∉ p ∧ noLabelLine (pstrip p) = true)
    (ht1 : t ≠ []) (ht2 : pstrip t = t) (ht3 : '\n' ∉ t)
    (ht4 : occursIn (strL "TITLE:") t = false)
    (hc1a : c1 ≠ []) (hc1b : pstrip c1 = c1) (hc1c : '\n' ∉ c1)
    (hc1d : occursIn (strL "CONTENT:") c1 = false)
    (hcr : ∀ l ∈ cRest, l ≠ [] ∧ pstrip l = l ∧ '\n' ∉ l ∧ noLabelLine l = true)
    (hh1 : hs ≠ []) (hh2 : pstrip hs = hs) (hh3 : '\n' ∉ hs)
    (hh4 : occursIn (strL "HASHTAGS:") hs = false)
    (hk1 : cta ≠ []) (hk2 : pstrip cta = cta) (hk3 : '\n' ∉ cta)
    (hk4 : occursIn (strL "CALL_TO_ACTION:") cta = false)
    (hct : clean_titleF t = t)
    (hcc : clean_contentF (joinLines (c1 :: cRest)) = joinLines (c1 :: cRest))
    (hch : clean_hashtagsF hs = hs)
    (hck : clean_ctaF cta = cta) :
    parse_blog_response (mkResponse pre t c1 cRest hs cta hasH hasC) =
      { title := t, content := joinLines (c1 :: cRest),
        hashtags := if hasH then hs else [],
        call_to_action := if hasC then cta else [],
        full_post := mkResponse pre t c1 cRest hs cta hasH hasC } := by
  have hprenl : ∀ p ∈ pre, '\n' ∉ p := fun p hp => (hpre p hp).1
  have hpreSkip : ∀ p ∈ pre, noLabelLine (pstrip p) = true := fun p hp => (hpre p hp).2
  have hcrnl : ∀ l ∈ cRest, '\n' ∉ l := fun l hl => (hcr l hl).2.2.1
  have hcr3 : ∀ l ∈ cRest, l ≠ [] ∧ pstrip l = l ∧ noLabelLine l = true :=
    fun l hl => ⟨(hcr l hl).1, (hcr l hl).2.1, (hcr l hl).2.2.2⟩
  have hT : '\n' ∉ strL "TITLE: " ++ t := by
    intro hmem
    rcases List.mem_append.mp hmem with h | h
    · exact absurd h (by decide)
    · exact ht3 h
  have hC : '\n' ∉ strL "CONTENT: " ++ c1 := by
    intro hmem
    rcases List.mem_append.mp hmem with h | h
    · exact absurd h (by decide)
    · exact hc1c h
  have hH : '\n' ∉ strL "HASHTAGS: " ++ hs := by
    intro hmem
    rcases List.mem_append.mp hmem with h | h
    · exact absurd h (by decide)
    · exact hh3 h
  have hK : '\n' ∉ strL "CALL_TO_ACTION: " ++ cta := by
    intro hmem
    rcases List.mem_append.mp hmem with h | h
    · exact absurd h (by decide)
    · exact hk3 h
  cases hasH <;> cases hasC
  · -- hasH = false, hasC = false
    have hnlL : ∀ l ∈ (pre ++ [strL "TITLE: " ++ t] ++ [strL "CONTENT: " ++ c1] ++
        cRest ++ ([] : List (List Char)) ++ ([] : List (List Char))), '\n' ∉ l := by
      intro l hl
      simp only [List.mem_append, List.mem_singleton] at hl
      rcases hl with ((((hl | hl) | hl) | hl) | hl) | hl
      · exact hprenl l hl
      · subst hl; exact hT
      · subst hl; exact hC
      · exact hcrnl l hl
      · exact absurd hl (List.not_mem_nil l)
      · exact absurd hl (List.not_mem_nil l)
    have hsp : splitLines (mkResponse pre t c1 cRest hs cta false false) =
        pre ++ [strL "TITLE: " ++ t] ++ [strL "CONTENT: " ++ c1] ++ cRest ++
          ([] : List (List Char)) ++ ([] : List (List Char)) := by
      rw [show mkResponse pre t c1 cRest hs cta false false =
        joinLines (pre ++ [strL "TITLE: " ++ t] ++ [strL "CONTENT: " ++ c1] ++
          cRest ++ ([] : List (List Char)) ++ ([] : List (List Char))) from rfl]
      exact splitLines_joinLines _ (by simp) hnlL
    show clean_content ((splitLines (mkResponse pre t c1 cRest hs cta false false)).foldl
      stepLine (none, BlogData.mk [] [] [] []
        (mkResponse pre t c1 cRest hs cta false false))).2 = _
    rw [hsp]
    rw [List.foldl_append, List.foldl_append]
    simp only [List.foldl_nil]
    rw [parse_lines_core (mkResponse pre t c1 cRest hs cta false false) pre t c1 cRest
      hpreSkip ht1 ht2 ht4 hc1a hc1b hc1d hcr3]
    show BlogData.mk (clean_titleF t) (clean_contentF (joinLines (c1 :: cRest)))
      (clean_hashtagsF []) (clean_ctaF [])
      (mkResponse pre t c1 cRest hs cta false false) = _
    rw [hct, hcc]
    rfl
  · -- hasH = false, hasC = true
    have hnlL : ∀ l ∈ (pre ++ [strL "TITLE: " ++ t] ++ [strL "CONTENT: " ++ c1] ++
        cRest ++ ([] : List (List Char)) ++ [strL "CALL_TO_ACTION: " ++ cta]), '\n' ∉ l := by
      intro l hl
      simp only [List.mem_append, List.mem_singleton] at hl
      rcases hl with ((((hl | hl) | hl) | hl) | hl) | hl
      · exact hprenl l hl
      · subst hl; exact hT
      · subst hl; exact hC
      · exact hcrnl l hl
      · exact absurd hl (List.not_mem_nil l)
      · subst hl; exact hK
    have hsp : splitLines (mkResponse pre t c1 cRest hs cta false true) =
        pre ++ [strL "TITLE: " ++ t] ++ [strL "CONTENT: " ++ c1] ++ cRest ++
          ([] : List (List Char)) ++ [strL "CALL_TO_ACTION: " ++ cta] := by
      rw [show mkResponse pre t c1 cRest hs cta false true =
        joinLines (pre ++ [strL "TITLE: " ++ t] ++ [strL "CONTENT: " ++ c1] ++
          cRest ++ ([] : List (List Char)) ++ [strL "CALL_TO_ACTION: " ++ cta]) from rfl]
      exact splitLines_joinLines _ (by simp) hnlL
    show clean_content ((splitLines (mkResponse pre t c1 cRest hs cta false true)).foldl
      stepLine (none, BlogData.mk [] [] [] []
        (mkResponse pre t c1 cRest hs cta false true))).2 = _
    rw [hsp]
    rw [List.foldl_append, List.foldl_append]
    simp only [List.foldl_nil, List.foldl_cons]
    rw [parse_lines_core (mkResponse pre t c1 cRest hs cta false true) pre t c1 cRest
      hpreSkip ht1 ht2 ht4 hc1a hc1b hc1d hcr3]
    rw [stepLine_cta _ hk1 hk2 hk4]
    show BlogData.mk (clean_titleF t) (clean_contentF (joinLines (c1 :: cRest)))
      (clean_hashtagsF []) (clean_ctaF cta)
      (mkResponse pre t c1 cRest hs cta false true) = _
    rw [hct, hcc, hck]
    rfl
  · -- hasH = true, hasC = false
    have hnlL : ∀ l ∈ (pre ++ [strL "TITLE: " ++ t] ++ [strL "CONTENT: " ++ c1] ++
        cRest ++ [strL "HASHTAGS: " ++ hs] ++ ([] : List (List Char))), '\n' ∉ l := by
      intro l hl
      simp only [List.mem_append, List.mem_singleton] at hl
      rcases hl with ((((hl | hl) | hl) | hl) | hl) | hl
      · exact hprenl l hl
      · subst hl; exact hT
      · subst hl; exact hC
      · exact hcrnl l hl
      · subst hl; exact hH
      · exact absurd hl (List.not_mem_nil l)
    have hsp : splitLines (mkResponse pre t c1 cRest hs cta true false) =
        pre ++ [strL "TITLE: " ++ t] ++ [strL "CONTENT: " ++ c1] ++ cRest ++
          [strL "HASHTAGS: " ++ hs] ++ ([] : List (List Char)) := by
      rw [show mkResponse pre t c1 cRest hs cta true false =
        joinLines (pre ++ [strL "TITLE: " ++ t] ++ [strL "CONTENT: " ++ c1] ++
          cRest ++ [strL "HASHTAGS: " ++ hs] ++ ([] : List (List Char))) from rfl]
      exact splitLines_joinLines _ (by simp) hnlL
    show clean_content ((splitLines (mkResponse pre t c1 cRest hs cta true false)).foldl
      stepLine (none, BlogData.mk [] [] [] []
        (mkResponse pre t c1 cRest hs cta true false))).2 = _
    rw [hsp]
    rw [List.foldl_append, List.foldl_append]
    simp only [List.foldl_nil, List.foldl_cons]
    rw [parse_lines_core (mkResponse pre t c1 cRest hs cta true false) pre t c1 cRest
      hpreSkip ht1 ht2 ht4 hc1a hc1b hc1d hcr3]
    rw [stepLine_hashtags _ hh1 hh2 hh4]
    show BlogData.mk (clean_titleF t) (clean_contentF (joinLines (c1 :: cRest)))
      (clean_hashtagsF hs) (clean_ctaF [])
      (mkResponse pre t c1 cRest hs cta true false) = _
    rw [hct, hcc, hch]
    rfl
  · -- hasH = true, hasC = true
    have hnlL : ∀ l ∈ (pre ++ [strL "TITLE: " ++ t] ++ [strL "CONTENT: " ++ c1] ++
        cRest ++ [strL "HASHTAGS: " ++ hs] ++ [strL "CALL_TO_ACTION: " ++ cta]), '\n' ∉ l := by
      intro l hl
      simp only [List.mem_append, List.mem_singleton] at hl
      rcases hl with ((((hl | hl) | hl) | hl) | hl) | hl
      · exact hprenl l hl
      · subst hl; exact hT
      · subst hl; exact hC
      · exact hcrnl l hl
      · subst hl; exact hH
      · subst hl; exact hK
    have hsp : splitLines (mkResponse pre t c1 cRest hs cta true true) =
        pre ++ [strL "TITLE: " ++ t] ++ [strL "CONTENT: " ++ c1] ++ cRest ++
          [strL "HASHTAGS: " ++ hs] ++ [strL "CALL_TO_ACTION: " ++ cta] := by
      rw [show mkResponse pre t c1 cRest hs cta true true =
        joinLines (pre ++ [strL "TITLE: " ++ t] ++ [strL "CONTENT: " ++ c1] ++
          cRest ++ [strL "HASHTAGS: " ++ hs] ++ [strL "CALL_TO_ACTION: " ++ cta]) from rfl]
      exact splitLines_joinLines _ (by simp) hnlL
    show clean_content ((splitLines (mkResponse pre t c1 cRest hs cta true true)).foldl
      stepLine (none, BlogData.mk [] [] [] []
        (mkResponse pre t c1 cRest hs cta true true))).2 = _
    rw [hsp]
    rw [List.foldl_append, List.foldl_append]
    simp only [List.foldl_cons, List.foldl_nil]
    rw [parse_lines_core (mkResponse pre t c1 cRest hs cta true true) pre t c1 cRest
      hpreSkip ht1 ht2 ht4 hc1a hc1b hc1d hcr3]
    rw [stepLine_hashtags _ hh1 hh2 hh4]
    rw [stepLine_cta _ hk1 hk2 hk4]
    show BlogData.mk (clean_titleF t) (clean_contentF (joinLines (c1 :: cRest)))
      (clean_hashtagsF hs) (clean_ctaF cta)
      (mkResponse pre t c1 cRest hs cta true true) = _
    rw [hct, hcc, hch, hck]
    rfl

/-- C5 counterexample to the unamended claim: the response
`TITLE: **Hi**\nCONTENT: ok` has title section body `**Hi**`, but the parsed
title is the sanitized `Hi`, not the body itself. -/
theorem claim_C5_counterexample :
    (parse_blog_response (strL "TITLE: **Hi**\nCONTENT: ok")).title ≠ strL "**Hi**" ∧
    (parse_blog_response (strL "TITLE: **Hi**\nCONTENT: ok")).title = strL "Hi" := by
  constructor
  · decide
  · decide

/-- C5 witness: the amended round-trip theorem applied at a concrete
response with a preamble line, a two-line content section and both optional
sections present. -/
theorem claim_C5_witness :
    parse_blog_response (mkResponse [strL "junk"] (strL "My Title")
        (strL "Para one.") [strL "Para two."] (strL "#ai #tech")
        (strL "Comment below!") true true) =
      { title := strL "My Title",
        content := joinLines [strL "Para one.", strL "Para two."],
        hashtags := strL "#ai #tech",
        call_to_action := strL "Comment below!",
        full_post := mkResponse [strL "junk"] (strL "My Title")
          (strL "Para one.") [strL "Para two."] (strL "#ai #tech")
          (strL "Comment below!") true true } :=
  claim_C5_parser_roundtrip [strL "junk"] (strL "My Title") (strL "Para one.")
    [strL "Para two."] (strL "#ai #tech") (strL "Comment below!") true true
    (by decide) (by decide) (by decide) (by decide) (by decide)
    (by decide) (by decide) (by decide) (by decide)
    (by decide)
    (by decide) (by decide) (by decide) (by decide)
    (by decide) (by decide) (by decide) (by decide)
    (by decide) (by decide) (by decide) (by decide)
